import Mathlib

/-!
# Verification of the go-ucl scanner/decoder (sot-tech/go-ucl)

A shallow embedding of the repository's core: the byte-level lexical
scanner (`scanner.go`) and the recursive-descent decoder (`decoder.go`,
whose legacy duplicate is `parser.go`).  Bytes are modelled as `Nat`,
byte strings as `List Nat`, the Go `io.Reader` as the list of remaining
input bytes (the whole input is assumed to arrive in a single `Read`
chunk, as happens for any source of at most 4096 bytes, e.g. a
`bytes.Reader` over a small document).  Go's `map[string]interface{}`
is modelled as an association list in insertion order; Go's `nil`
interface value is `Value.vnull`.  The scanner's `line` counter is
omitted: it feeds only the text of error messages, which are modelled
as an error enumeration (one constructor per distinct error site).
The process-wide `ExportKeyOrder` flag is modelled as an explicit
parameter of the decode session.
-/

namespace UCL

/-- Scanner tag states, mirroring the `const` block of `scanner.go`
(`WHITESPACE`, `TAG`, `SEMICOL`, ... and the scanner-only indicator
states). -/
inductive TState where
  | Whitespace
  | Tag
  | Semicol
  | Comma
  | Colon
  | Equal
  | Quote
  | VQuote
  | Slash
  | HComment
  | LComment
  | MlString
  | BraceOpen
  | BraceClose
  | BracketOpen
  | BracketClose
  | LCommentClosing
  | MaybeMlString
  | MaybeMlString2
  | MlStringPrep
  | MlStringHeaderOk
  deriving DecidableEq, Repr

/-- A scanner token: `type tag struct { val []byte; state int }`. -/
structure Tag where
  val : List Nat
  state : TState
  deriving DecidableEq, Repr

/-- Error values.  Each constructor corresponds to one distinct error
site of `scanner.go` / `decoder.go`; `eofSig` is the `io.EOF` sentinel
(a signal, not a user error), `outOfFuel` is an artifact of the fueled
embedding of the decoder's recursion and corresponds to no Go
behaviour. -/
inductive Err where
  /-- `io.EOF`: clean end of input with no open scope. -/
  | eofSig
  /-- `ErrUnexpectedEOF`: input exhausted with open scopes. -/
  | unexpectedEOF
  /-- scanner: "misplaced ] at line %d" (idle state). -/
  | misplacedBracketClose
  /-- scanner: "misplaced } at line %d" (idle state). -/
  | misplacedBraceClose
  /-- scanner: "unexpected ':'/'=' at line %d" (idle state, no preceding quoted tag). -/
  | unexpectedSepIdle (c : Nat)
  /-- scanner: "unexpected ',' at line %d" (idle state, innermost scope not a bracket). -/
  | unexpectedCommaIdle
  /-- scanner: "unexpected } at line %d" (tag state, scope top not a brace). -/
  | unexpectedBraceCloseTag
  /-- scanner: "unexpected } at line %d" (tag state on `]`, scope top not a bracket). -/
  | unexpectedBracketCloseTag
  /-- scanner: "unexpected '\' at line %d" (backslash while accumulating a bare word). -/
  | backslashInTag
  /-- scanner: "Line %d %c %d %s" (junk character in a heredoc header). -/
  | heredocHeader (c : Nat)
  /-- scanner: "unable to unquote ..." (`makeTag` on a malformed quoted string). -/
  | unquoteFail
  /-- scanner: Go slice-bounds panic `s.curTag[:len-1]` on an empty heredoc body. -/
  | hereDocSlicePanic
  /-- decoder: "unexpected ';' at line %d" (`parseValue`, no parent). -/
  | unexpectedSemi
  /-- decoder: "unexpected ',' at line %d" (`parseValue`, no parent). -/
  | unexpectedComma
  /-- decoder: `errUnexpectedMultiline`. -/
  | unexpectedMultiline
  /-- decoder: `errUnexpectedBracket`. -/
  | unexpectedBracket
  /-- decoder: `errKeyOrderNotSlice`. -/
  | keyOrderNotSlice
  /-- decoder: `errParentNotMap`. -/
  | parentNotMap
  /-- decoder: `parseList` "invalid tag %s line %d". -/
  | invalidListTag
  /-- decoder: `parseList` "unexpected tag %s, line %d". -/
  | unexpectedListTag
  /-- artifact: recursion fuel exhausted (no Go counterpart). -/
  | outOfFuel
  deriving DecidableEq, Repr

/-- Scanner state: the fields of `type scanner struct` other than the
reader/buffer machinery (the remaining input is threaded separately)
and the `line` counter (used only in error text). -/
structure Scanner where
  depth : List Nat := []
  curTag : List Nat := []
  state : TState := .Whitespace
  skipSep : Nat := 0
  mlStringTag : List Nat := []
  curLine : List Nat := []
  deriving DecidableEq, Repr

/-- `const skipWhite = 0x01`. -/
def skipWhiteBit : Nat := 1
/-- `const skipSep = 0x02`. -/
def skipSepBit : Nat := 2

/-- `scanner.scopeAdd`: push an open-scope byte. -/
def Scanner.scopeAdd (s : Scanner) (c : Nat) : Scanner :=
  { s with depth := c :: s.depth }

/-- `scanner.scopeReduce`: pop the innermost scope if `c` matches it;
returns whether it matched, together with the updated state. -/
def Scanner.scopeReduce (s : Scanner) (c : Nat) : Bool × Scanner :=
  match s.depth with
  | [] => (false, s)
  | top :: ds =>
    if (top = 91 ∧ c = 93) ∨ (top = 123 ∧ c = 125) ∨ (top = 40 ∧ c = 41) then
      (true, { s with depth := ds })
    else
      (false, s)

/-- `scanner.curDepth`: the innermost open-scope byte, or `0`. -/
def Scanner.curDepth (s : Scanner) : Nat :=
  match s.depth with
  | [] => 0
  | top :: _ => top

/-- `scanner.discard`: reset the accumulation buffer. -/
def Scanner.discard (s : Scanner) : Scanner :=
  { s with curTag := [] }

/-- Go `c >= 'a' && c <= 'z' || c >= 'A' && c <= 'Z' || c >= '0' && c <= '9'`. -/
def isAlnum (c : Nat) : Bool :=
  (97 ≤ c ∧ c ≤ 122) ∨ (65 ≤ c ∧ c ≤ 90) ∨ (48 ≤ c ∧ c ≤ 57)

/-- Hex digit value (Go `unhex`). -/
def unhex (c : Nat) : Option Nat :=
  if 48 ≤ c ∧ c ≤ 57 then some (c - 48)
  else if 97 ≤ c ∧ c ≤ 102 then some (c - 97 + 10)
  else if 65 ≤ c ∧ c ≤ 70 then some (c - 65 + 10)
  else none

/-- Fold `n` hex digits into a value (the `v = v<<4 | x` loop). -/
def readHex : Nat → List Nat → Nat → Option (Nat × List Nat)
  | 0, s, v => some (v, s)
  | _ + 1, [], _ => none
  | n + 1, c :: s, v =>
    match unhex c with
    | none => none
    | some x => readHex n s (v * 16 + x)

/-- Standard UTF-8 encoding of a code point (Go `utf8.EncodeRune`,
valid-rune inputs). -/
def utf8Encode (r : Nat) : List Nat :=
  if r < 0x80 then [r]
  else if r < 0x800 then [0xC0 + r / 64, 0x80 + r % 64]
  else if r < 0x10000 then [0xE0 + r / 4096, 0x80 + r / 64 % 64, 0x80 + r % 64]
  else [0xF0 + r / 262144, 0x80 + r / 4096 % 64, 0x80 + r / 64 % 64, 0x80 + r % 64]

/-- Go `utf8.ValidRune`. -/
def validRune (r : Nat) : Bool :=
  r < 0x110000 ∧ ¬ (0xD800 ≤ r ∧ r ≤ 0xDFFF)

/-- Modelled from the spec: Go's `strconv.UnquoteChar` (standard
library, not part of `src/`; the spec calls for "standard escapes plus
`\uXXXX`/rune escapes").  Decodes one (possibly escaped) character,
returning `(value, multibyte, tail)`.  Bytes `≥ 0x80` are passed
through one at a time (for valid UTF-8 input, decoding a rune and
re-encoding it is the identity, so the byte-level result agrees). -/
def unquoteChar (s : List Nat) (quote : Nat) : Option (Nat × Bool × List Nat) :=
  match s with
  | [] => none
  | c :: rest =>
    if c = quote ∧ (quote = 39 ∨ quote = 34) then none
    else if 0x80 ≤ c then some (c, false, rest)
    else if c ≠ 92 then some (c, false, rest)
    else
      match rest with
      | [] => none
      | e :: s2 =>
        if e = 97 then some (7, false, s2)
        else if e = 98 then some (8, false, s2)
        else if e = 102 then some (12, false, s2)
        else if e = 110 then some (10, false, s2)
        else if e = 114 then some (13, false, s2)
        else if e = 116 then some (9, false, s2)
        else if e = 118 then some (11, false, s2)
        else if e = 120 then  -- \xHH
          match readHex 2 s2 0 with
          | none => none
          | some (v, tail) => some (v, false, tail)
        else if e = 117 then  -- \uHHHH
          match readHex 4 s2 0 with
          | none => none
          | some (v, tail) => if validRune v then some (v, true, tail) else none
        else if e = 85 then  -- \UHHHHHHHH
          match readHex 8 s2 0 with
          | none => none
          | some (v, tail) => if validRune v then some (v, true, tail) else none
        else if 48 ≤ e ∧ e ≤ 55 then  -- octal
          match s2 with
          | d1 :: d2 :: tail =>
            if 48 ≤ d1 ∧ d1 ≤ 55 ∧ 48 ≤ d2 ∧ d2 ≤ 55 then
              let v := (e - 48) * 64 + (d1 - 48) * 8 + (d2 - 48)
              if v ≤ 255 then some (v, false, tail) else none
            else none
          | _ => none
        else if e = 92 then some (92, false, s2)
        else if e = 39 ∨ e = 34 then
          if e = quote then some (e, false, s2) else none
        else none

/-- The `for len(s) > 0 { strconv.UnquoteChar ... }` loop of `unquote`
(`scanner.go`); fueled by the input length (each step consumes at
least one byte). -/
def unquoteLoop : Nat → List Nat → Nat → Option (List Nat)
  | _, [], _ => some []
  | 0, _ :: _, _ => none
  | fuel + 1, s, quote =>
    match unquoteChar s quote with
    | none => none
    | some (v, multibyte, tail) =>
      let bytes := if v < 0x80 ∨ ¬ multibyte then [v % 256] else utf8Encode v
      (unquoteLoop fuel tail quote).map (bytes ++ ·)

/-- `unquote` (`scanner.go`): strconv.Unquote modified to take the
quote character as an argument. -/
def unquote (s : List Nat) (quote : Nat) : Option (List Nat) :=
  if s = [] then some []
  else if quote = 96 then
    if s.contains 96 then none else some s
  else if quote ≠ 34 ∧ quote ≠ 39 then none
  else if ¬ s.contains 92 ∧ ¬ s.contains quote then some s
  else unquoteLoop (s.length + 1) s quote

/-- `scanner.makeTag`.  With `v = some bs` the bytes are used verbatim
(when nonempty); with `v = none` the accumulated `curTag` is consumed:
unquoted for quote states, verbatim otherwise; an empty accumulator
yields the zero tag (state `Whitespace`), which the decoder filters. -/
def Scanner.makeTag (s : Scanner) (v : Option (List Nat)) (st : TState) :
    Except Err (Tag × Scanner) :=
  match v with
  | some bs =>
    if bs.length > 0 then .ok (⟨bs, st⟩, s) else .ok (⟨[], .Whitespace⟩, s)
  | none =>
    if s.state = .Quote ∨ s.state = .VQuote then
      let q : Nat := if s.state = .Quote then 34 else 39
      match unquote s.curTag q with
      | none => .error .unquoteFail
      | some qs => .ok (⟨qs, s.state⟩, { s with curTag := [] })
    else if s.curTag.length > 0 then
      .ok (⟨s.curTag, s.state⟩, { s with curTag := [] })
    else
      .ok (⟨[], .Whitespace⟩, s)

/-- The backward scan-and-flush of `nextTags`' close/quote branches
(`for i := len(s.curTag) - 1; i >= 0; i--; if s.curTag[i] > ' '`):
the longest prefix of `curTag` ending in a byte `> ' '`. -/
def trimTrailingWs (bs : List Nat) : List Nat :=
  ((bs.reverse).dropWhile (· ≤ 32)).reverse

/-- The `strings.Split(string(s.curTag), " ")` + non-empty-field loop
of the `{` / `[` branches of the tag state: each nonempty
space-separated field becomes one `TAG` token. -/
def fieldTags (bs : List Nat) : List Tag :=
  ((bs.splitOn 32).filter (·.length > 0)).map (fun f => ⟨f, .Tag⟩)

/-- The `te` scan of the heredoc header (`MLSTRING_PREP`): count the
bytes before the next `<`, failing on any byte that is `> ' '` and not
`=` (error "Line %d %c %d %s"). -/
def hdScanLt : List Nat → Except Err Nat
  | [] => .ok 0
  | c :: rest =>
    if c = 60 then .ok 0
    else if c > 32 ∧ c ≠ 61 then .error (.heredocHeader c)
    else (hdScanLt rest).map (· + 1)

/-- One step of `scanner.nextTags`: the outcome of processing one
input byte. -/
inductive ScanOut where
  /-- an error return (`return nil, err`). -/
  | fail (e : Err)
  /-- `return tags, nil`: emit the batch and stop this call. -/
  | emit (tags : List Tag) (s : Scanner)
  /-- continue the loop; `skip` extra bytes were consumed by an
  escape sequence (`s.bufIndex++`). -/
  | cont (s : Scanner) (tags : List Tag) (skip : Nat)
  deriving DecidableEq, Repr

/-- The `case WHITESPACE, BRACEOPEN, BRACECLOSE` branch of the
`nextTags` loop. -/
def scanWhitespace (c : Nat) (s : Scanner) (tags : List Tag) : ScanOut :=
  if c ≤ 32 then
    if s.state ≠ .Whitespace then
      match s.makeTag none .Whitespace with
      | .error e => .fail e
      | .ok (t, s1) =>
        .emit (tags ++ [t]) { s1 with curTag := s1.curTag ++ [c], state := .Whitespace }
    else
      let s1 := { s with curTag := s.curTag ++ [c], state := .Whitespace }
      if tags.length > 0 then .emit tags s1 else .cont s1 tags 0
  else
    let s1 := if s.curTag.length > 0 ∧ s.curTag.getLastD 0 ≤ 32 then s.discard else s
    let s2 := if c ≠ 34 ∧ c ≠ 39 then { s1 with curTag := s1.curTag ++ [c] } else s1
    if c = 91 then
      let s3 := { s2.scopeAdd 91 with state := .BracketOpen }
      match s3.makeTag none .Whitespace with
      | .error e => .fail e
      | .ok (t, s4) => .emit (tags ++ [t]) { s4 with state := .Whitespace }
    else if c = 93 then
      match s2.scopeReduce 93 with
      | (false, _) => .fail .misplacedBracketClose
      | (true, s3) =>
        match { s3 with state := TState.BracketClose }.makeTag none .Whitespace with
        | .error e => .fail e
        | .ok (t, s4) => .emit (tags ++ [t]) { s4 with state := .Whitespace }
    else if c = 40 ∨ c = 41 then
      .cont { s2 with state := .Tag, skipSep := skipWhiteBit + skipSepBit } tags 0
    else if c = 123 then
      let s3 := { s2.scopeAdd 123 with state := .BraceOpen }
      match s3.makeTag none .Whitespace with
      | .error e => .fail e
      | .ok (t, s4) => .emit (tags ++ [t]) { s4 with state := .Whitespace }
    else if c = 125 then
      match s2.scopeReduce 125 with
      | (false, _) => .fail .misplacedBraceClose
      | (true, s3) =>
        match { s3 with state := TState.BraceClose }.makeTag none .Whitespace with
        | .error e => .fail e
        | .ok (t, s4) => .emit (tags ++ [t]) { s4 with state := .Whitespace }
    else if c = 47 then .cont { s2 with state := .Slash } tags 0
    else if c = 34 then .cont { s2 with state := .Quote } tags 0
    else if c = 39 then .cont { s2 with state := .VQuote } tags 0
    else if c = 35 then .cont { s2 with state := .HComment } tags 0
    else if c = 60 then
      .cont { s2 with state := .Tag, skipSep := skipWhiteBit + skipSepBit } tags 0
    else if c = 61 ∨ c = 58 then
      if tags.length = 0 ∨
         ((tags.getLastD ⟨[], .Whitespace⟩).state ≠ .Quote ∧
          (tags.getLastD ⟨[], .Whitespace⟩).state ≠ .VQuote) then
        .fail (.unexpectedSepIdle c)
      else .cont { s2 with state := .Tag, skipSep := skipWhiteBit } tags 0
    else if c = 44 then
      if s2.curDepth = 91 then
        match { s2 with state := TState.Comma }.makeTag none .Whitespace with
        | .error e => .fail e
        | .ok (t, s4) => .emit (tags ++ [t]) { s4 with state := .Whitespace }
      else .fail .unexpectedCommaIdle
    else if c = 59 then
      match { s2 with state := TState.Semicol }.makeTag none .Whitespace with
      | .error e => .fail e
      | .ok (t, s4) => .emit (tags ++ [t]) { s4 with state := .Whitespace }
    else
      .cont { s2 with state := .Tag, skipSep := skipWhiteBit + skipSepBit } tags 0

/-- The `case TAG` branch of the `nextTags` loop. -/
def scanTag (c : Nat) (s : Scanner) (tags : List Tag) : ScanOut :=
  if s.curTag.length > 0 ∧ s.curTag.getLastD 0 = 60 then
    .cont { s with curTag := s.curTag ++ [c], state := .MaybeMlString } tags 0
  else if c = 123 then
    let tags1 := tags ++ fieldTags s.curTag
    let s1 := { ({ s with curTag := [123] }).scopeAdd 123 with state := .BraceOpen }
    match s1.makeTag none .Whitespace with
    | .error e => .fail e
    | .ok (t, s2) => .emit (tags1 ++ [t]) { s2 with state := .Whitespace }
  else if c = 125 then
    if s.curDepth ≠ 123 then .fail .unexpectedBraceCloseTag
    else
      let tb := trimTrailingWs s.curTag
      let tags1 := if tb.length > 0 then tags ++ [⟨tb, .Tag⟩] else tags
      let s1 := (s.scopeReduce 125).2
      .emit (tags1 ++ [⟨[125], .BraceClose⟩]) { s1 with curTag := [], state := .Whitespace }
  else if c = 39 ∨ c = 34 then
    let tb := trimTrailingWs s.curTag
    let tags1 := if tb.length > 0 then tags ++ [⟨tb, .Tag⟩] else tags
    let st := if c = 39 then TState.VQuote else TState.Quote
    .emit tags1 { s with curTag := [], state := st }
  else if c = 91 then
    let tags1 := tags ++ fieldTags s.curTag
    let s1 := { ({ s with curTag := [91] }).scopeAdd 91 with state := .BracketOpen }
    match s1.makeTag none .Whitespace with
    | .error e => .fail e
    | .ok (t, s2) => .emit (tags1 ++ [t]) { s2 with state := .Whitespace }
  else if c = 93 then
    if s.curDepth ≠ 91 then .fail .unexpectedBracketCloseTag
    else
      let tb := trimTrailingWs s.curTag
      let tags1 := if tb.length > 0 then tags ++ [⟨tb, .Tag⟩] else tags
      let s1 := (s.scopeReduce 93).2
      .emit (tags1 ++ [⟨[93], .BracketClose⟩]) { s1 with curTag := [], state := .Whitespace }
  else if c = 59 then
    match s.makeTag none .Whitespace with
    | .error e => .fail e
    | .ok (t, s1) =>
      match { s1 with curTag := [59], state := TState.Semicol }.makeTag none .Whitespace with
      | .error e => .fail e
      | .ok (t2, s3) => .emit (tags ++ [t, t2]) { s3 with state := .Whitespace }
  else if c = 44 then
    if s.curDepth ≠ 91 ∧ s.curDepth ≠ 123 then
      .cont { s with curTag := s.curTag ++ [c] } tags 0
    else
      match s.makeTag none .Whitespace with
      | .error e => .fail e
      | .ok (t, s1) =>
        match { s1 with curTag := [44], state := TState.Comma }.makeTag none .Whitespace with
        | .error e => .fail e
        | .ok (t2, s3) => .emit (tags ++ [t, t2]) { s3 with state := .Whitespace }
  else if c = 10 then
    match s.makeTag none .Whitespace with
    | .error e => .fail e
    | .ok (t, s1) =>
      .emit (tags ++ [t, ⟨[59], .Semicol⟩]) { s1 with curTag := [], state := .Whitespace }
  else if c ≤ 32 then
    if tags.length = 0 then
      match s.makeTag none .Whitespace with
      | .error e => .fail e
      | .ok (t, s1) => .cont s1 (tags ++ [t]) 0
    else if s.skipSep &&& skipWhiteBit = 0 then
      .cont { s with curTag := s.curTag ++ [c] } tags 0
    else .cont s tags 0
  else if c = 58 ∨ c = 61 then
    if s.skipSep &&& skipSepBit ≠ 0 then
      match s.makeTag none .Whitespace with
      | .error e => .fail e
      | .ok (t, s1) =>
        let st : TState := if c = 58 then .Colon else .Equal
        match { s1 with curTag := [c], state := st }.makeTag none .Whitespace with
        | .error e => .fail e
        | .ok (t2, s3) =>
          .cont { s3 with state := .Tag, skipSep := s3.skipSep &&& skipWhiteBit }
            (tags ++ [t, t2]) 0
    else
      .cont { s with curTag := s.curTag ++ [c], skipSep := s.skipSep &&& skipSepBit } tags 0
  else if c = 92 then .fail .backslashInTag
  else
    let s1 := { s with curTag := s.curTag ++ [c] }
    let s2 := if tags.length > 0 then { s1 with skipSep := s1.skipSep &&& skipSepBit } else s1
    .cont s2 tags 0

/-- The `case MAYBE_MLSTRING` branch. -/
def scanMaybeMl (c : Nat) (s : Scanner) (tags : List Tag) : ScanOut :=
  let s1 := { s with curTag := s.curTag ++ [c] }
  if isAlnum c then .cont { s1 with state := .MlStringPrep, curLine := [c] } tags 0
  else .cont { s1 with state := .Tag } tags 0

/-- The `case MLSTRING_PREP` branch (heredoc header line). -/
def scanMlPrep (c : Nat) (s : Scanner) (tags : List Tag) : ScanOut :=
  if isAlnum c then
    let work : Except Err (List Tag × Scanner) :=
      if s.curTag.headD 0 ≠ 60 then
        let ti := s.curTag.findIdx (· ≤ 32)
        let key := s.curTag.take ti
        match hdScanLt (s.curTag.drop ti) with
        | .error e => .error e
        | .ok k =>
          let t : Tag := if key.length > 0 then ⟨key, .Tag⟩ else ⟨[], .Whitespace⟩
          .ok (tags ++ [t], { s with curTag := s.curTag.drop (ti + k) })
      else .ok (tags, s)
    match work with
    | .error e => .fail e
    | .ok (tags1, s1) =>
      let s2 := { s1 with curTag := s1.curTag ++ [c], curLine := s1.curLine ++ [c] }
      if tags1.length > 0 then .emit tags1 s2 else .cont s2 tags1 0
  else
    let s1 := { s with mlStringTag := s.curLine, curLine := [], curTag := [] }
    if c = 10 then .cont { s1 with state := .MlString } tags 0
    else .cont { s1 with state := .MlStringHeaderOk } tags 0

/-- The `case MLSTRING_HEADER_OK` branch. -/
def scanMlHeaderOk (c : Nat) (s : Scanner) (tags : List Tag) : ScanOut :=
  if c = 10 then .cont { s with state := .MlString } tags 0
  else .cont s tags 0

/-- The `case MLSTRING` branch (heredoc body). -/
def scanMlString (c : Nat) (s : Scanner) (tags : List Tag) : ScanOut :=
  if c = 59 ∨ c = 10 then
    if s.curLine = s.mlStringTag then
      if s.curTag.length = 0 then .fail .hereDocSlicePanic
      else
        match { s with curTag := s.curTag.dropLast }.makeTag none .Whitespace with
        | .error e => .fail e
        | .ok (t, s2) => .emit (tags ++ [t]) { s2 with state := .Whitespace, curLine := [] }
    else
      let s1 := { s with curTag := s.curTag ++ s.curLine ++ [c], curLine := [] }
      if tags.length > 0 then .emit tags s1 else .cont s1 tags 0
  else
    let s1 := { s with curLine := s.curLine ++ [c] }
    if tags.length > 0 then .emit tags s1 else .cont s1 tags 0

/-- The `case QUOTE, VQUOTE` branch; `ahead` is the next unread byte,
if any (the `s.bufIndex >= s.bufMax` check of the escape). -/
def scanQuote (c : Nat) (ahead : Option Nat) (s : Scanner) (tags : List Tag) : ScanOut :=
  if c = 92 then
    match ahead with
    | none => .cont { s with curTag := s.curTag ++ [c] } tags 0
    | some c2 => .cont { s with curTag := s.curTag ++ [c, c2] } tags 1
  else if (s.state = .Quote ∧ c = 34) ∨ (s.state = .VQuote ∧ c = 39) then
    match s.makeTag none .Whitespace with
    | .error e => .fail e
    | .ok (t, s1) =>
      .cont { s1 with state := .Tag, skipSep := skipWhiteBit + skipSepBit } (tags ++ [t]) 0
  else .cont { s with curTag := s.curTag ++ [c] } tags 0

/-- The `case SLASH` branch; `rest` is the unread input (the escape
requires two more bytes, and `s.bufIndex++` before the read skips one
byte, so the escape keeps the backslash and the second byte). -/
def scanSlash (c : Nat) (rest : List Nat) (s : Scanner) (tags : List Tag) : ScanOut :=
  if s.curTag.length = 1 ∧ c = 42 then
    .cont { s with curTag := s.curTag ++ [c], state := .LComment } tags 0
  else if c = 92 ∧ 2 ≤ rest.length then
    .cont { s with curTag := s.curTag ++ [92, rest.getD 1 0] } tags 2
  else if c = 47 then
    match { s with curTag := s.curTag ++ [c] }.makeTag none .Whitespace with
    | .error e => .fail e
    | .ok (t, s2) => .emit (tags ++ [t]) { s2 with state := .Whitespace }
  else if c = 10 then
    match s.makeTag none .Whitespace with
    | .error e => .fail e
    | .ok (t, s1) => .emit (tags ++ [t]) { s1 with state := .Whitespace }
  else if c = 32 then
    match s.makeTag none .Whitespace with
    | .error e => .fail e
    | .ok (t, s1) =>
      .emit (tags ++ [t]) { s1 with curTag := s1.curTag ++ [c], state := .Whitespace }
  else if c = 59 then
    match { s with state := TState.Tag }.makeTag none .Whitespace with
    | .error e => .fail e
    | .ok (t, s2) => .emit (tags ++ [t]) { s2 with curTag := s2.curTag ++ [59], state := .Tag }
  else .cont { s with curTag := s.curTag ++ [c] } tags 0

/-- The `case HCOMMENT` branch. -/
def scanHComment (c : Nat) (s : Scanner) (tags : List Tag) : ScanOut :=
  if c = 10 then
    match s.makeTag none .Whitespace with
    | .error e => .fail e
    | .ok (t, s1) => .emit (tags ++ [t]) { s1 with state := .Whitespace }
  else .cont { s with curTag := s.curTag ++ [c] } tags 0

/-- The `case LCOMMENT` branch. -/
def scanLComment (c : Nat) (s : Scanner) (tags : List Tag) : ScanOut :=
  let s1 := { s with curTag := s.curTag ++ [c] }
  if c = 42 then .cont { s1 with state := .LCommentClosing } tags 0
  else .cont s1 tags 0

/-- The `case LCOMMENT_CLOSING` branch. -/
def scanLCommentClosing (c : Nat) (s : Scanner) (tags : List Tag) : ScanOut :=
  let s1 := { s with curTag := s.curTag ++ [c] }
  if c = 47 then
    match { s1 with state := TState.LComment }.makeTag none .Whitespace with
    | .error e => .fail e
    | .ok (t, s3) => .emit (tags ++ [t]) { s3 with state := .Whitespace }
  else .cont { s1 with state := .LComment } tags 0

/-- The `switch s.state` dispatch of the `nextTags` loop body. -/
def scanStep (c : Nat) (rest : List Nat) (s : Scanner) (tags : List Tag) : ScanOut :=
  match s.state with
  | .Whitespace | .BraceOpen | .BraceClose => scanWhitespace c s tags
  | .Tag => scanTag c s tags
  | .MaybeMlString => scanMaybeMl c s tags
  | .MlStringPrep => scanMlPrep c s tags
  | .MlStringHeaderOk => scanMlHeaderOk c s tags
  | .MlString => scanMlString c s tags
  | .Quote | .VQuote => scanQuote c rest.head? s tags
  | .Slash => scanSlash c rest s tags
  | .HComment => scanHComment c s tags
  | .LComment => scanLComment c s tags
  | .LCommentClosing => scanLCommentClosing c s tags
  | _ => .cont s tags 0

/-- `scanner.nextTags`, the scanner's main loop: one `scanStep` per
input byte, threading the state and the batch accumulated in this
call.  An exhausted source returns the `io.EOF` sentinel or
`ErrUnexpectedEOF`, discarding the current batch exactly as the Go
code does (`if s.bufMax == 0`). -/
def nextTagsAux : List Nat → Scanner → List Tag → Except Err (List Tag × List Nat × Scanner)
  | [], s, _ =>
    if s.depth.length > 0 then .error .unexpectedEOF else .error .eofSig
  | c :: rest, s, tags =>
    match scanStep c rest s tags with
    | .fail e => .error e
    | .emit ts s' => .ok (ts, rest, s')
    | .cont s' tags' 0 => nextTagsAux rest s' tags'
    | .cont s' tags' 1 =>
      match rest with
      | [] => nextTagsAux [] s' tags'
      | _ :: rest2 => nextTagsAux rest2 s' tags'
    | .cont s' tags' (_ + 2) =>
      match rest with
      | [] => nextTagsAux [] s' tags'
      | [_] => nextTagsAux [] s' tags'
      | _ :: _ :: rest3 => nextTagsAux rest3 s' tags'

/-- `scanner.nextTags` entry point: a fresh batch. -/
def nextTags (inp : List Nat) (s : Scanner) : Except Err (List Tag × List Nat × Scanner) :=
  nextTagsAux inp s []

/-! ## The value model

Go's `interface{}` values produced by the decoder: `nil`, `string`,
`[]interface{}`, `map[string]interface{}`, the `[]string` key-order
side-list, and (through the error-swallowing path of `Decoder.parse`)
a raw `*tag`.  The map is modelled as an association list in
insertion order (Go's map itself is unordered; insertion order is
what the key-order side-list records). -/

inductive Value where
  | vnull
  | vstr (s : List Nat)
  | vlist (xs : List Value)
  | vmap (entries : List (List Nat × Value))
  | vstrlist (ss : List (List Nat))
  | vtag (t : Tag)

/-- Go's `parent == nil` test on an `interface{}` value. -/
def Value.isNull : Value → Bool
  | .vnull => true
  | _ => false

/-- `const KeyOrder = "--ucl-keyorder--"` as bytes. -/
def keyOrderKey : List Nat :=
  [45, 45, 117, 99, 108, 45, 107, 101, 121, 111, 114, 100, 101, 114, 45, 45]

/-- Map lookup (`mapParent[k]`), first match in the association list. -/
def mapGet (m : List (List Nat × Value)) (k : List Nat) : Option Value :=
  match m with
  | [] => none
  | (k', v) :: rest => if k' = k then some v else mapGet rest k

/-- Map store (`mapParent[k] = v`): update in place, else append. -/
def mapSet (m : List (List Nat × Value)) (k : List Nat) (v : Value) :
    List (List Nat × Value) :=
  match m with
  | [] => [(k, v)]
  | (k', v') :: rest => if k' = k then (k, v) :: rest else (k', v') :: mapSet rest k v

/-- The result of `Decoder.parseValue` (an `interface{}`): either an
ordinary value or an unhandled `*tag` bubbled to the caller. -/
inductive RVal where
  | rv (v : Value)
  | rt (t : Tag)

/-- Collect the whole token sequence of a source: the successive
batches returned by `scanner.nextTags`, up to the first error (which
every run reaches: at the latest, exhaustion of the input yields the
`io.EOF` sentinel or `ErrUnexpectedEOF`).  The terminal error is kept
alongside the tokens.  Each `nextTags` call consumes at least one
input byte, so `input.length + 1` rounds of fuel always suffice and
`outOfFuel` is unreachable from `decode`. -/
def scanAll : Nat → List Nat → Scanner → List Tag × Err
  | 0, _, _ => ([], .outOfFuel)
  | fuel + 1, inp, s =>
    match nextTags inp s with
    | .error e => ([], e)
    | .ok (batch, inp', s') =>
      match scanAll fuel inp' s' with
      | (ts, e) => (batch ++ ts, e)

/-- Decoder state seen through the pull interface: the tokens not yet
consumed, then the terminal error of the scan.  `decoder.go` keeps
the scanner and the current batch (`p.tags`/`p.tagsIndex`) and pulls
batches lazily; the spec (§4.1, §9) states that this batching is an
internal optimization and a one-token-at-a-time pull over the same
token sequence is an equally valid model of the contract, which is
what this state is.  The scan is deterministic and the decoder reads
nothing of the scanner but its tokens, so the two presentations give
the same decode results.  The Go `done` field is never assigned and
stays `false`; it is omitted. -/
structure Dec where
  tags : List Tag
  fin : Err
  deriving DecidableEq, Repr

/-- `NewDecoder` + the scan: the full token stream of the input. -/
def Dec.init (inp : List Nat) : Dec :=
  match scanAll (inp.length + 1) inp {} with
  | (ts, fin) => ⟨ts, fin⟩

/-- Tag kinds skipped by `Decoder.nextTag` (`WHITESPACE`, `LCOMMENT`,
`HCOMMENT`). -/
def isFilteredTag (t : Tag) : Bool :=
  match t.state with
  | .Whitespace | .LComment | .HComment => true
  | _ => false

/-- The filtering loop of `Decoder.nextTag` over the remaining
tokens. -/
def nextTagL : List Tag → Err → Except Err (Tag × Dec)
  | [], fin => .error fin
  | t :: ts, fin =>
    if isFilteredTag t then nextTagL ts fin else .ok (t, ⟨ts, fin⟩)

/-- `Decoder.nextTag`: pull the next unfiltered token; an exhausted
stream yields the scan's terminal error (in `decoder.go` this is the
moment the next `scanner.nextTags` call reports it). -/
def nextTag (d : Dec) : Except Err (Tag × Dec) :=
  nextTagL d.tags d.fin

/-- The duplicate-key insertion step of `Decoder.parse` (lines
269-288): an existing `[]interface{}` value is appended to; any other
existing value is promoted to a 2-element list; a new key is appended
(recording it in the key-order side-list when that is initialized). -/
def mapInsert (entries : List (List Nat × Value)) (koInit : Bool)
    (koList : List (List Nat)) (k : List Nat) (res : Value) :
    List (List Nat × Value) :=
  match mapGet entries k with
  | some (.vlist arr) => mapSet entries k (.vlist (arr ++ [res]))
  | some old => mapSet entries k (.vlist [old, res])
  | none =>
    let entries1 :=
      if koInit then mapSet entries keyOrderKey (.vstrlist (koList ++ [k]))
      else entries
    mapSet entries1 k res

/-- The key-order bookkeeping of `Decoder.parse` (lines 238-247):
read `mapParent[KeyOrder]`; absent means a fresh (capacity-16) list
when `ExportKeyOrder` is set, nil otherwise (`cap(keyOrder) != 0`
is the "initialized" test); present must be a `[]string`. -/
def readKeyOrder (entries : List (List Nat × Value)) (ko : Bool) :
    Except Err (Bool × List (List Nat)) :=
  match mapGet entries keyOrderKey with
  | none => .ok (ko, [])
  | some (.vstrlist ss) => .ok (true, ss)
  | some _ => .error .keyOrderNotSlice

mutual

/-- `Decoder.parseValue`: resolve one prospective key/value token with
one-token lookahead.  Returns `(err, result, state)`; Go's
`(interface{}, error)` pair may carry both a `*tag` and an error.
`ko` models the process-wide `ExportKeyOrder` switch as a session
parameter. -/
def parseValue : Nat → Bool → Option Tag → Value → Dec → Option Err × RVal × Dec
  | 0, _, _, _, d => (some .outOfFuel, .rv .vnull, d)
  | fuel + 1, ko, tOpt, parent, d =>
    match tOpt with
    | none =>
      match nextTag d with
      | .error e => (some e, .rv .vnull, d)
      | .ok (t, d1) => parseValueTag fuel ko t parent d1
    | some t => parseValueTag fuel ko t parent d

/-- The `switch t.state` body of `Decoder.parseValue`. -/
def parseValueTag : Nat → Bool → Tag → Value → Dec → Option Err × RVal × Dec
  | 0, _, _, _, d => (some .outOfFuel, .rv .vnull, d)
  | fuel + 1, ko, t, parent, d =>
    match t.state with
    | .Tag | .Quote | .VQuote | .Slash =>
      -- value or new key: peek the follow-on token
      match nextTag d with
      | .error e => (some e, .rv .vnull, d)
      | .ok (nt, d1) =>
        if nt.state = .Semicol ∨ nt.state = .Comma then
          (none, .rv (.vstr t.val), d1)  -- leaf value; done
        else if nt.state = .BraceClose ∨ nt.state = .BracketClose then
          (none, .rt ⟨t.val, nt.state⟩, d1)  -- nt.val = t.val; bubble close
        else
          -- "t" is a new key tag
          match parseValue fuel ko (some nt) parent d1 with
          | (some e, _, d2) => (some e, .rv .vnull, d2)
          | (none, res, d2) =>
            let rv : Value := match res with | .rv v => v | .rt tg => .vtag tg
            (none,
             .rv (.vmap (mapSet (mapSet [] keyOrderKey (.vstrlist [t.val])) t.val rv)),
             d2)
    | .Semicol =>
      if parent.isNull then (some .unexpectedSemi, .rt t, d)
      else (none, .rv parent, d)
    | .Comma =>
      if parent.isNull then (some .unexpectedComma, .rt t, d)
      else (none, .rv parent, d)
    | .MlString => (none, .rv (.vstr t.val), d)
    | .BraceOpen =>
      match parse fuel ko (some t) parent d with
      | (e, r, _po, d1) => (e, .rv r, d1)
    | .BraceClose => (none, .rv parent, d)
    | .BracketOpen =>
      match parseList fuel ko none [] d with
      | (e, r, d1) => (e, .rv r, d1)
    | .BracketClose => (none, .rv parent, d)
    | .Equal | .Colon => parseValue fuel ko none parent d
    | _ => (none, .rv .vnull, d)

/-- `Decoder.parseList`: elements until a bracket close. -/
def parseList : Nat → Bool → Option Tag → List Value → Dec → Option Err × Value × Dec
  | 0, _, _, _, d => (some .outOfFuel, .vnull, d)
  | fuel + 1, ko, tOpt, parent, d =>
    match tOpt with
    | none =>
      match nextTag d with
      | .error e => (some e, .vnull, d)
      | .ok (t, d1) => parseListTag fuel ko t parent d1
    | some t => parseListTag fuel ko t parent d

/-- The `switch t.state` body of `Decoder.parseList`. -/
def parseListTag : Nat → Bool → Tag → List Value → Dec → Option Err × Value × Dec
  | 0, _, _, _, d => (some .outOfFuel, .vnull, d)
  | fuel + 1, ko, t, parent, d =>
    match t.state with
    | .BracketClose => (none, .vlist parent, d)
    | .Semicol | .Colon | .Equal => (some .invalidListTag, .vnull, d)
    | .Comma => parseList fuel ko none parent d
    | _ =>
      match parseValue fuel ko (some t) .vnull d with
      | (some e, _, d1) => (some e, .vnull, d1)
      | (none, .rt rt, d1) =>
        if rt.state = .BracketClose then (none, .vlist (parent ++ [.vstr rt.val]), d1)
        else (some .unexpectedListTag, .vnull, d1)
      | (none, .rv v, d1) => parseList fuel ko none (parent ++ [v]) d1

/-- `Decoder.parse` (map-body).  Returns `(err, ret, parentOut, state)`
where `parentOut` is the parent after the in-place mutations Go
performs on the shared map, also on the error paths (`Decode` returns
the root map regardless of error). -/
def parse : Nat → Bool → Option Tag → Value → Dec → Option Err × Value × Value × Dec
  | 0, _, _, parent, d => (some .outOfFuel, .vnull, parent, d)
  | fuel + 1, ko, tOpt, parent, d =>
    match tOpt with
    | none =>
      match nextTag d with
      | .error e => (some e, .vnull, parent, d)
      | .ok (t, d1) => parseTag fuel ko t parent d1
    | some t => parseTag fuel ko t parent d

/-- The `switch t.state` body of `Decoder.parse`. -/
def parseTag : Nat → Bool → Tag → Value → Dec → Option Err × Value × Value × Dec
  | 0, _, _, parent, d => (some .outOfFuel, .vnull, parent, d)
  | fuel + 1, ko, t, parent, d =>
    match t.state with
    | .Tag | .Quote | .VQuote | .Slash =>
      match parent with
      | .vmap entries =>
        match readKeyOrder entries ko with
        | .error e => (some e, .vnull, parent, d)
        | .ok (koInit, koList) =>
          match parseValue fuel ko none .vnull d with
          | (some e, res, d1) =>
            match res with
            | .rt rt =>
              if rt.state = .Semicol then
                -- no value for key, make it == null (error swallowed)
                let entries1 := mapInsert entries koInit koList t.val .vnull
                parse fuel ko none (.vmap entries1) d1
              else
                -- err != nil, res a non-semicolon tag: Go falls through
                -- and inserts the raw *tag, dropping the error
                let entries1 := mapInsert entries koInit koList t.val (.vtag rt)
                parse fuel ko none (.vmap entries1) d1
            | .rv _ => (some e, .vnull, parent, d1)
          | (none, res, d1) =>
            match res with
            | .rt rt =>
              if rt.state = .BraceClose then
                -- `res, t = string(resTag.val), resTag` precedes
                -- `k := string(t.val)`: key and value are both the
                -- carried scalar; the original key token is dropped
                let entries1 := mapInsert entries koInit koList rt.val (.vstr rt.val)
                (none, .vmap entries1, .vmap entries1, d1)
              else
                -- unhandled tag: re-dispatch it as the next t
                parseTag fuel ko rt parent d1
            | .rv v =>
              let entries1 := mapInsert entries koInit koList t.val v
              parse fuel ko none (.vmap entries1) d1
      | _ => (some .parentNotMap, .vnull, parent, d)
    | .Semicol => parse fuel ko none parent d
    | .MlString => (some .unexpectedMultiline, .vnull, parent, d)
    | .BraceOpen =>
      match parent with
      | .vnull =>
        match parse fuel ko none (.vmap []) d with
        | (e, r, _po, d1) => (e, r, parent, d1)
      | .vmap entries =>
        match parse fuel ko none (.vmap entries) d with
        | (e, r, po, d1) => (e, r, po, d1)
      | .vlist xs =>
        match parse fuel ko none (.vlist xs) d with
        | (e, r, po, d1) => (e, r, po, d1)
      | _ => (some .unexpectedBracket, .vnull, parent, d)
    | .BraceClose => (none, parent, parent, d)
    | .BracketOpen =>
      match parseList fuel ko none [] d with
      | (e, r, d1) => (e, r, parent, d1)
    | .BracketClose => (none, parent, parent, d)
    | _ => (none, .vnull, parent, d)

end

/-- `Decoder.Decode` with explicit fuel: run `parse` on the
pre-existing root map, mask the `io.EOF` sentinel, return the root
regardless of error. -/
def decodeWith (fuel : Nat) (ko : Bool) (inp : List Nat) : Value × Option Err :=
  match parse fuel ko none (.vmap []) (Dec.init inp) with
  | (e, _r, po, _d) => (po, if e = some .eofSig then none else e)

/-- `Decoder.Decode`: fuel derived generously from the input size
(every round of the decoder's recursion past a constant start-up
consumes at least one token, and tokens are no denser than bytes). -/
def decode (ko : Bool) (inp : List Nat) : Value × Option Err :=
  decodeWith (16 * inp.length + 64) ko inp

/-- Byte list of an ASCII string, for concrete inputs. -/
def bytesOf (s : String) : List Nat := s.data.map Char.toNat

/-- The initial value of the process-wide `var ExportKeyOrder = true`
(modelled as a session parameter `ko` of the decode functions). -/
def ExportKeyOrderDefault : Bool := true

/-- One level of implicit nesting per juxtaposed word token: the
single-key map with its key-order side-list that
`Decoder.parseValue` builds around each resolved value. -/
def nestMaps (ws : List (List Nat)) (base : Value) : Value :=
  ws.foldr
    (fun w acc => .vmap (mapSet (mapSet [] keyOrderKey (.vstrlist [w])) w acc)) base

/-! ## The key-order invariant (C3): definitions -/

/-- The user-visible keys of a map body: every key except the
reserved key-order key, in list (= first-insertion) order. -/
def userKeys (es : List (List Nat × Value)) : List (List Nat) :=
  (es.filter (fun p => decide (p.1 ≠ keyOrderKey))).map Prod.fst

/-- The key-order contract of one map body: if the reserved entry is
absent, either the switch is off or the map has no user keys yet; if
present, it is a string list equal to the user keys in
first-insertion order, nonempty, and — when the switch is off — a
singleton (the single-key maps of implicit nesting carry their entry
regardless of the switch). -/
def KoEntryOk (ko : Bool) (es : List (List Nat × Value)) : Prop :=
  match mapGet es keyOrderKey with
  | none => ko = false ∨ userKeys es = []
  | some (.vstrlist ss) => ss = userKeys es ∧ ss ≠ [] ∧ (ko = true ∨ ss.length = 1)
  | some _ => False

/-- The key-order invariant over a whole value tree. -/
inductive ValueOk (ko : Bool) : Value → Prop where
  | vnull : ValueOk ko .vnull
  | vstr (s : List Nat) : ValueOk ko (.vstr s)
  | vstrlist (ss : List (List Nat)) : ValueOk ko (.vstrlist ss)
  | vtag (t : Tag) : ValueOk ko (.vtag t)
  | vlist (vs : List Value) : (∀ v ∈ vs, ValueOk ko v) → ValueOk ko (.vlist vs)
  | vmap (es : List (List Nat × Value)) : KoEntryOk ko es →
      (∀ p ∈ es, ValueOk ko p.2) → ValueOk ko (.vmap es)

/-- Invariant on a `Decoder.parseValue` result. -/
def RValOk (ko : Bool) : RVal → Prop
  | .rv v => ValueOk ko v
  | .rt t => t.val ≠ keyOrderKey

/-- No remaining token spells the reserved key-order key (the
invariant assumes the input does not use the reserved name as its own
key). -/
def Clean (d : Dec) : Prop := ∀ t ∈ d.tags, t.val ≠ keyOrderKey

/-- Cleanliness of an optional pending token. -/
def OptClean : Option Tag → Prop
  | none => True
  | some t => t.val ≠ keyOrderKey

/-- What the decoder guarantees of every `parent` it passes to
`Decoder.parse`: the tree invariant, and — when the switch is off —
no key-order entry in a map body (bodies are only ever fresh empty
maps or bodies already being filled by `parse`). -/
def ParentOk (ko : Bool) (v : Value) : Prop :=
  ValueOk ko v ∧ ∀ es, v = .vmap es → ko = false → mapGet es keyOrderKey = none

/-- A map body as guaranteed for parents, unpacked. -/
def BodyOk (ko : Bool) (es : List (List Nat × Value)) : Prop :=
  KoEntryOk ko es ∧ (ko = false → mapGet es keyOrderKey = none) ∧
    ∀ p ∈ es, ValueOk ko p.2

/-- Invariant contract of `parseValue` at a given fuel. -/
def PVGood (ko : Bool) (fuel : Nat) : Prop :=
  ∀ tOpt parent d, ParentOk ko parent → Clean d → OptClean tOpt →
    RValOk ko (parseValue fuel ko tOpt parent d).2.1 ∧
    Clean (parseValue fuel ko tOpt parent d).2.2

/-- Invariant contract of `parseValue`'s tag dispatch at a given fuel. -/
def PVTGood (ko : Bool) (fuel : Nat) : Prop :=
  ∀ (t : Tag) parent d, ParentOk ko parent → Clean d → t.val ≠ keyOrderKey →
    RValOk ko (parseValueTag fuel ko t parent d).2.1 ∧
    Clean (parseValueTag fuel ko t parent d).2.2

/-- Invariant contract of `parseList` at a given fuel. -/
def PLGood (ko : Bool) (fuel : Nat) : Prop :=
  ∀ tOpt parent d, (∀ v ∈ parent, ValueOk ko v) → Clean d → OptClean tOpt →
    ValueOk ko (parseList fuel ko tOpt parent d).2.1 ∧
    Clean (parseList fuel ko tOpt parent d).2.2

/-- Invariant contract of `parseList`'s tag dispatch at a given fuel. -/
def PLTGood (ko : Bool) (fuel : Nat) : Prop :=
  ∀ (t : Tag) parent d, (∀ v ∈ parent, ValueOk ko v) → Clean d →
    t.val ≠ keyOrderKey →
    ValueOk ko (parseListTag fuel ko t parent d).2.1 ∧
    Clean (parseListTag fuel ko t parent d).2.2

/-- Invariant contract of `parse` at a given fuel. -/
def PGood (ko : Bool) (fuel : Nat) : Prop :=
  ∀ tOpt parent d, ParentOk ko parent → Clean d → OptClean tOpt →
    ValueOk ko (parse fuel ko tOpt parent d).2.1 ∧
    ParentOk ko (parse fuel ko tOpt parent d).2.2.1 ∧
    Clean (parse fuel ko tOpt parent d).2.2.2

/-- Invariant contract of `parse`'s tag dispatch at a given fuel. -/
def PTGood (ko : Bool) (fuel : Nat) : Prop :=
  ∀ (t : Tag) parent d, ParentOk ko parent → Clean d → t.val ≠ keyOrderKey →
    ValueOk ko (parseTag fuel ko t parent d).2.1 ∧
    ParentOk ko (parseTag fuel ko t parent d).2.2.1 ∧
    Clean (parseTag fuel ko t parent d).2.2.2


/-! ## Token transcripts of the concrete inputs used below

Each lemma records the full token stream the scanner produces for one
concrete input, proved by computation. -/

/-- Tokens of `a b c;`: the spaces between the juxtaposed bare words
are accumulated into the second token (`"b c"`). -/
theorem scanABCsemi : Dec.init (bytesOf "a b c;") =
    ⟨[⟨[97], .Tag⟩, ⟨[98, 32, 99], .Tag⟩, ⟨[59], .Semicol⟩], .eofSig⟩ := rfl

/-- Tokens of `a b c { d e; }`: the `{` splits the accumulated words
into one `TAG` token each. -/
theorem scanABCbrace : Dec.init (bytesOf "a b c { d e; }") =
    ⟨[⟨[97], .Tag⟩, ⟨[98], .Tag⟩, ⟨[99], .Tag⟩, ⟨[123], .BraceOpen⟩, ⟨[100], .Tag⟩,
      ⟨[101], .Tag⟩, ⟨[59], .Semicol⟩, ⟨[125], .BraceClose⟩], .eofSig⟩ := rfl

/-- Tokens of `a b { c d; }`. -/
theorem scanABbrace : Dec.init (bytesOf "a b { c d; }") =
    ⟨[⟨[97], .Tag⟩, ⟨[98], .Tag⟩, ⟨[123], .BraceOpen⟩, ⟨[99], .Tag⟩, ⟨[100], .Tag⟩,
      ⟨[59], .Semicol⟩, ⟨[125], .BraceClose⟩], .eofSig⟩ := rfl

/-- Tokens of `a 1, b 2;`: the comma is accumulated into the bare
word, producing the single value token `"1, b 2"`. -/
theorem scanCommaGlue : Dec.init (bytesOf "a 1, b 2;") =
    ⟨[⟨[97], .Tag⟩, ⟨[49, 44, 32, 98, 32, 50], .Tag⟩, ⟨[59], .Semicol⟩], .eofSig⟩ := rfl

/-- Tokens of `a 1\n, b 2;`: after the newline terminates the first
statement, the comma is met in idle state and is a grammar error. -/
theorem scanCommaIdle : Dec.init (bytesOf "a 1\n, b 2;") =
    ⟨[⟨[97], .Tag⟩, ⟨[49], .Tag⟩, ⟨[59], .Semicol⟩], .unexpectedCommaIdle⟩ := rfl

/-- Tokens of `a {` (unclosed brace). -/
theorem scanOpenBrace : Dec.init (bytesOf "a \x7b") =
    ⟨[⟨[97], .Tag⟩, ⟨[123], .BraceOpen⟩], .unexpectedEOF⟩ := rfl

/-- Tokens of `]` (close with no open). -/
theorem scanLoneBracket : Dec.init (bytesOf "]") = ⟨[], .misplacedBracketClose⟩ := rfl

/-- Tokens of `[ }` (close not matching the innermost open). -/
theorem scanMismatch : Dec.init (bytesOf "[ \x7d") =
    ⟨[⟨[91], .BracketOpen⟩], .misplacedBraceClose⟩ := rfl

/-- Tokens of a heredoc in value position. -/
theorem scanHeredocVal : Dec.init (bytesOf "a <<EOD\nhello\nEOD\n") =
    ⟨[⟨[97], .Tag⟩, ⟨[104, 101, 108, 108, 111], .MlString⟩], .eofSig⟩ := rfl

/-- Tokens of a heredoc in key position. -/
theorem scanHeredocKey : Dec.init (bytesOf "<<EOD\nx\nEOD\nb;") =
    ⟨[⟨[120], .MlString⟩, ⟨[98], .Tag⟩, ⟨[59], .Semicol⟩], .eofSig⟩ := rfl

/-- Tokens of `a; b 1;`. -/
theorem scanSemiNull : Dec.init (bytesOf "a; b 1;") =
    ⟨[⟨[97], .Tag⟩, ⟨[59], .Semicol⟩, ⟨[98], .Tag⟩, ⟨[49], .Tag⟩, ⟨[59], .Semicol⟩],
     .eofSig⟩ := rfl

/-- Tokens of `a 1` (no terminator): the pending words are in the
batch the scanner discards when it reports end of input. -/
theorem scanUnterminated : Dec.init (bytesOf "a 1") = ⟨[], .eofSig⟩ := rfl

/-- Tokens of `a 1; b 2` (terminated first statement, unterminated
second). -/
theorem scanHalf : Dec.init (bytesOf "a 1; b 2") =
    ⟨[⟨[97], .Tag⟩, ⟨[49], .Tag⟩, ⟨[59], .Semicol⟩], .eofSig⟩ := rfl

/-- Tokens of `m { b c }`: the braced body ends without a `;`, so the
value token `c` is followed directly by the brace close. -/
theorem scanBubble : Dec.init (bytesOf "m { b c }") =
    ⟨[⟨[109], .Tag⟩, ⟨[123], .BraceOpen⟩, ⟨[98], .Tag⟩, ⟨[99], .Tag⟩,
      ⟨[125], .BraceClose⟩], .eofSig⟩ := rfl

/-! ## Helper lemmas -/

/-- An exhausted source with no open scope yields the `io.EOF`
sentinel, discarding the batch under construction and the pending
accumulated word. -/
theorem nextTagsAux_nil_eof (s : Scanner) (tags : List Tag) (h : s.depth = []) :
    nextTagsAux [] s tags = .error .eofSig := by
  have e : nextTagsAux [] s tags =
      if s.depth.length > 0 then .error .unexpectedEOF else .error .eofSig := rfl
  rw [e, h]
  simp

/-- An exhausted source with open scopes yields `ErrUnexpectedEOF`. -/
theorem nextTagsAux_nil_open (s : Scanner) (tags : List Tag) (h : s.depth ≠ []) :
    nextTagsAux [] s tags = .error .unexpectedEOF := by
  have e : nextTagsAux [] s tags =
      if s.depth.length > 0 then .error .unexpectedEOF else .error .eofSig := rfl
  rw [e]
  simp [List.length_pos.mpr h]

/-! ## Claims -/

/-- C6: for every input whose byte source is exhausted with zero open
scopes, decode returns a nil error: the scanner reports the internal
`io.EOF` signal (first conjunct, the `bufMax == 0`/empty-depth branch
of `nextTags`), and `Decode` never surfaces that signal as an error
(second conjunct, the `errors.Is(err, io.EOF)` masking). -/
theorem C6_clean_eof_is_success :
    (∀ s tags, s.depth = [] → nextTagsAux [] s tags = .error .eofSig) ∧
    (∀ ko inp, (decode ko inp).2 ≠ some .eofSig) := by
  constructor
  · exact nextTagsAux_nil_eof
  · intro ko inp
    simp only [decode, decodeWith]
    rcases hp : parse (16 * inp.length + 64) ko none (.vmap []) (Dec.init inp) with
      ⟨e, r, po, d⟩
    dsimp only
    split <;> simp_all

/-- C6 witness: concrete instances of both conjuncts. -/
theorem C6_witness :
    nextTagsAux [] {} [] = .error .eofSig ∧
    (decode true (bytesOf "a 1; b 2")).2 ≠ some .eofSig :=
  ⟨C6_clean_eof_is_success.1 {} [] rfl, C6_clean_eof_is_success.2 true _⟩

/-- C10: an input that ends mid-statement with no terminator and no
open scope decodes with a nil error and the pending statement is
silently dropped: the scanner's end-of-input return discards the
batch under construction together with the accumulated word (first
conjunct), so `a 1` decodes to the empty map with no error, and
`a 1; b 2` keeps only the terminated first statement. -/
theorem C10_unterminated_statement_dropped :
    (∀ s tags, s.depth = [] → nextTagsAux [] s tags = .error .eofSig) ∧
    decode true (bytesOf "a 1") = (.vmap [], none) ∧
    decode true (bytesOf "a 1; b 2") =
      (.vmap [(keyOrderKey, .vstrlist [[97]]), ([97], .vstr [49])], none) := by
  refine ⟨nextTagsAux_nil_eof, ?_, ?_⟩
  · simp only [decode, decodeWith, scanUnterminated]
    rfl
  · simp only [decode, decodeWith, scanHalf]
    rfl

/-- C10 witness: the discard lemma applied mid-word — scanner state
in the middle of the bare word `b` with the tag `a` already pending in
the batch: both are dropped with the clean end-of-input signal. -/
theorem C10_witness :
    nextTagsAux [] { state := .Tag, curTag := [98] } [⟨[97], .Tag⟩] = .error .eofSig :=
  C10_unterminated_statement_dropped.1 { state := .Tag, curTag := [98] } [⟨[97], .Tag⟩] rfl

/-- Structure updates that do not touch `depth` preserve `curDepth`. -/
theorem curDepth_curTag (s : Scanner) (x : List Nat) :
    ({ s with curTag := x } : Scanner).curDepth = s.curDepth := rfl

/-- C4 counterexample: on the claim's own example `a 1, b 2;` the
comma occurs while a bare word is being accumulated; the scanner
appends it to the word (`s.curTag = append(s.curTag, c)` in the tag
state when the innermost scope is neither bracket nor brace), so the
input decodes with a nil error to `{a: "1, b 2"}` instead of failing
with a grammar error. -/
theorem C4_counterexample :
    decode true (bytesOf "a 1, b 2;") =
      (.vmap [(keyOrderKey, .vstrlist [[97]]), ([97], .vstr [49, 44, 32, 98, 32, 50])],
       none) := by
  simp only [decode, decodeWith, scanCommaGlue]
  rfl

/-- C4 amended: a comma met in the scanner's idle state while the
innermost open scope is not a bracket fails with the grammar error
"unexpected ','" (first conjunct; the second runs the full decode on
any input starting with such a comma; the third runs `a 1\n, b 2;`,
where the newline ends the statement so the comma is met in idle
state).  But a comma met while a bare word is being accumulated, with
the innermost scope neither bracket nor brace, is appended to the
word (fourth conjunct) — which is why `a 1, b 2;` succeeds. -/
theorem C4_comma_amended :
    (∀ s tags, s.state = .Whitespace → s.curDepth ≠ 91 →
       ∀ rest, nextTagsAux (44 :: rest) s tags = .error .unexpectedCommaIdle) ∧
    (∀ ko rest, (decode ko (44 :: rest)).2 = some .unexpectedCommaIdle) ∧
    decode true (bytesOf "a 1\n, b 2;") =
      (.vmap [(keyOrderKey, .vstrlist [[97]]), ([97], .vstr [49])],
       some .unexpectedCommaIdle) ∧
    (∀ s tags, s.state = .Tag → (s.curTag = [] ∨ s.curTag.getLastD 0 ≠ 60) →
       s.curDepth ≠ 91 → s.curDepth ≠ 123 →
       ∀ rest, nextTagsAux (44 :: rest) s tags =
         nextTagsAux rest { s with curTag := s.curTag ++ [44] } tags) := by
  have hidle : ∀ s tags, s.state = .Whitespace → s.curDepth ≠ 91 →
      ∀ rest, nextTagsAux (44 :: rest) s tags = .error .unexpectedCommaIdle := by
    intro s tags hst hdep rest
    have hs : scanStep 44 rest s tags = .fail .unexpectedCommaIdle := by
      obtain ⟨d, ct, st, sk, ml, cl⟩ := s
      subst hst
      simp only [Scanner.curDepth] at hdep
      simp only [scanStep, scanWhitespace, Scanner.discard, Scanner.curDepth]
      norm_num
      by_cases hd1 : 0 < ct.length ∧ ct.getLast?.getD 0 ≤ 32
      · rw [if_pos hd1]; cases d <;> simp_all
      · rw [if_neg hd1]; cases d <;> simp_all
    simp only [nextTagsAux, hs]
  refine ⟨hidle, ?_, ?_, ?_⟩
  · intro ko rest
    have hinit : Dec.init (44 :: rest) = ⟨[], .unexpectedCommaIdle⟩ := by
      simp only [Dec.init, List.length_cons]
      simp only [scanAll, nextTags, hidle {} [] rfl (by simp [Scanner.curDepth]) rest]
    simp only [decode, decodeWith, hinit, List.length_cons]
    rw [show 16 * (rest.length + 1) + 64 = (16 * rest.length + 79) + 1 by ring]
    simp only [parse, nextTag, nextTagL]
    rfl
  · simp only [decode, decodeWith, scanCommaIdle]
    rfl
  · intro s tags hst hg h91 h123 rest
    have hs : scanStep 44 rest s tags =
        .cont { s with curTag := s.curTag ++ [44] } tags 0 := by
      obtain ⟨d, ct, st, sk, ml, cl⟩ := s
      subst hst
      simp only [Scanner.curDepth] at h91 h123
      simp only [scanStep, scanTag, Scanner.curDepth]
      rcases hg with hg | hg
      · simp at hg; subst hg; simp [h91, h123]
      · simp at hg
        norm_num [hg]
        simp [h91, h123]
    simp only [nextTagsAux, hs]

/-- C4 witness: the grammar-error conjuncts at concrete inputs (a
comma at input start; a comma after a newline-terminated statement)
and the append conjunct applied mid-word. -/
theorem C4_witness :
    nextTagsAux (44 :: bytesOf " b 2;") {} [] = .error .unexpectedCommaIdle ∧
    (decode true (44 :: bytesOf " b 2;")).2 = some .unexpectedCommaIdle ∧
    nextTagsAux (44 :: bytesOf " b 2;") { state := .Tag, curTag := [49] } [⟨[97], .Tag⟩] =
      nextTagsAux (bytesOf " b 2;")
        { state := .Tag, curTag := [49, 44] } [⟨[97], .Tag⟩] :=
  ⟨C4_comma_amended.1 {} [] rfl (by decide) _,
   C4_comma_amended.2.1 true _,
   C4_comma_amended.2.2.2 { state := .Tag, curTag := [49] } [⟨[97], .Tag⟩] rfl
     (Or.inr (by decide)) (by decide) (by decide) _⟩

/-- C5: scope balance.  A source exhausted while scopes are open
fails with `ErrUnexpectedEOF` (first conjunct); a close bracket/brace
whose `scopeReduce` finds no matching innermost open scope fails with
the corresponding "misplaced"/"unexpected" scope error, in idle state
(second, third conjuncts) and in bare-word state (fourth, fifth
conjuncts); the closed conjuncts run the full decode on an unclosed
brace, a close with no open, and a close not matching the innermost
open. -/
theorem C5_scope_balance :
    (∀ s tags, s.depth ≠ [] → nextTagsAux [] s tags = .error .unexpectedEOF) ∧
    (∀ s tags, s.state = .Whitespace → (s.scopeReduce 93).1 = false →
       ∀ rest, nextTagsAux (93 :: rest) s tags = .error .misplacedBracketClose) ∧
    (∀ s tags, s.state = .Whitespace → (s.scopeReduce 125).1 = false →
       ∀ rest, nextTagsAux (125 :: rest) s tags = .error .misplacedBraceClose) ∧
    (∀ s tags, s.state = .Tag → (s.curTag = [] ∨ s.curTag.getLastD 0 ≠ 60) →
       s.curDepth ≠ 123 →
       ∀ rest, nextTagsAux (125 :: rest) s tags = .error .unexpectedBraceCloseTag) ∧
    (∀ s tags, s.state = .Tag → (s.curTag = [] ∨ s.curTag.getLastD 0 ≠ 60) →
       s.curDepth ≠ 91 →
       ∀ rest, nextTagsAux (93 :: rest) s tags = .error .unexpectedBracketCloseTag) ∧
    decode true (bytesOf "a \x7b") = (.vmap [], some .unexpectedEOF) ∧
    decode true (bytesOf "]") = (.vmap [], some .misplacedBracketClose) ∧
    decode true (bytesOf "[ \x7d") = (.vmap [], some .misplacedBraceClose) := by
  refine ⟨nextTagsAux_nil_open, ?_, ?_, ?_, ?_, ?_, ?_, ?_⟩
  · intro s tags hst hfail rest
    have hs : scanStep 93 rest s tags = .fail .misplacedBracketClose := by
      obtain ⟨d, ct, st, sk, ml, cl⟩ := s
      subst hst
      simp only [Scanner.scopeReduce] at hfail
      simp only [scanStep, scanWhitespace, Scanner.discard, Scanner.scopeReduce]
      norm_num
      by_cases hd1 : 0 < ct.length ∧ ct.getLast?.getD 0 ≤ 32
      · rw [if_pos hd1]; cases d with
        | nil => simp
        | cons top ds => by_cases h91 : top = 91 <;> simp_all
      · rw [if_neg hd1]; cases d with
        | nil => simp
        | cons top ds => by_cases h91 : top = 91 <;> simp_all
    simp only [nextTagsAux, hs]
  · intro s tags hst hfail rest
    have hs : scanStep 125 rest s tags = .fail .misplacedBraceClose := by
      obtain ⟨d, ct, st, sk, ml, cl⟩ := s
      subst hst
      simp only [Scanner.scopeReduce] at hfail
      simp only [scanStep, scanWhitespace, Scanner.discard, Scanner.scopeReduce]
      norm_num
      by_cases hd1 : 0 < ct.length ∧ ct.getLast?.getD 0 ≤ 32
      · rw [if_pos hd1]; cases d with
        | nil => simp
        | cons top ds => by_cases h123 : top = 123 <;> simp_all
      · rw [if_neg hd1]; cases d with
        | nil => simp
        | cons top ds => by_cases h123 : top = 123 <;> simp_all
    simp only [nextTagsAux, hs]
  · intro s tags hst hg hdep rest
    have hs : scanStep 125 rest s tags = .fail .unexpectedBraceCloseTag := by
      obtain ⟨d, ct, st, sk, ml, cl⟩ := s
      subst hst
      simp only [Scanner.curDepth] at hdep
      simp only [scanStep, scanTag, Scanner.curDepth]
      rcases hg with hg | hg
      · simp at hg; subst hg; simp [hdep]
      · simp at hg
        norm_num [hg]
        simp [hdep]
    simp only [nextTagsAux, hs]
  · intro s tags hst hg hdep rest
    have hs : scanStep 93 rest s tags = .fail .unexpectedBracketCloseTag := by
      obtain ⟨d, ct, st, sk, ml, cl⟩ := s
      subst hst
      simp only [Scanner.curDepth] at hdep
      simp only [scanStep, scanTag, Scanner.curDepth]
      rcases hg with hg | hg
      · simp at hg; subst hg; simp [hdep]
      · simp at hg
        norm_num [hg]
        simp [hdep]
    simp only [nextTagsAux, hs]
  · simp only [decode, decodeWith, scanOpenBrace]
    rfl
  · simp only [decode, decodeWith, scanLoneBracket]
    rfl
  · simp only [decode, decodeWith, scanMismatch]
    rfl

/-- C5 witness: the hypothesis-bearing conjuncts at concrete scanner
states — exhaustion under an open brace; `]` with no open scope; `}`
above an open bracket; tag-state `}` and `]` with mismatched
innermost scopes. -/
theorem C5_witness :
    nextTagsAux [] { depth := [123] } [] = .error .unexpectedEOF ∧
    nextTagsAux [93] {} [] = .error .misplacedBracketClose ∧
    nextTagsAux [125] { depth := [91] } [] = .error .misplacedBraceClose ∧
    nextTagsAux [125] { state := .Tag, curTag := [97], depth := [91] } [] =
      .error .unexpectedBraceCloseTag ∧
    nextTagsAux [93] { state := .Tag, curTag := [97], depth := [123] } [] =
      .error .unexpectedBracketCloseTag :=
  ⟨C5_scope_balance.1 { depth := [123] } [] (by decide),
   C5_scope_balance.2.1 {} [] rfl (by decide) [],
   C5_scope_balance.2.2.1 { depth := [91] } [] rfl (by decide) [],
   C5_scope_balance.2.2.2.1 { state := .Tag, curTag := [97], depth := [91] } [] rfl
     (Or.inr (by decide)) (by decide) [],
   C5_scope_balance.2.2.2.2.1 { state := .Tag, curTag := [97], depth := [123] } [] rfl
     (Or.inr (by decide)) (by decide) []⟩

/-- C7: in bare-word state, outside any open scope (and not inside a
possible heredoc introducer, where the newline would not end the
statement), an end-of-line byte is processed exactly as an explicit
`;`: the scanner emits the same flushed token followed by the same
`SEMICOL` token and reaches the same state, so everything downstream
of the token stream — the whole decode result — is identical. -/
theorem C7_newline_equals_semicolon :
    ∀ s tags, s.state = .Tag → (s.curTag = [] ∨ s.curTag.getLastD 0 ≠ 60) →
      s.depth = [] →
      ∀ rest, nextTagsAux (10 :: rest) s tags = nextTagsAux (59 :: rest) s tags := by
  intro s tags hst hg _hdep rest
  have hs : scanStep 10 rest s tags = scanStep 59 rest s tags := by
    obtain ⟨d, ct, st, sk, ml, cl⟩ := s
    subst hst
    rcases hg with hg | hg
    · simp at hg; subst hg
      simp [scanStep, scanTag, Scanner.makeTag]
    · simp at hg
      cases ct with
      | nil => simp [scanStep, scanTag, Scanner.makeTag]
      | cons a l => simp [scanStep, scanTag, Scanner.makeTag, hg]
  simp only [nextTagsAux, hs]

/-- C7 witness: mid-word state `b` after key `a`, at top level: the
newline and the semicolon produce identical scanner results. -/
theorem C7_witness :
    nextTagsAux (10 :: bytesOf "c 1;") { state := .Tag, curTag := [98] } [⟨[97], .Tag⟩] =
      nextTagsAux (59 :: bytesOf "c 1;") { state := .Tag, curTag := [98] } [⟨[97], .Tag⟩] :=
  C7_newline_equals_semicolon { state := .Tag, curTag := [98] } [⟨[97], .Tag⟩] rfl
    (Or.inr (by decide)) rfl _

/-- C1 counterexample: decoding `a b c;` does not produce nested
single-key maps.  The scanner appends the space between juxtaposed
bare words to the accumulated word (tag-state `c <= ' '` branch with
`skipWhite` cleared), so `b c` arrives as one token and the value of
`a` is the scalar `"b c"`, not the map `{b: "c"}` the claim
predicts. -/
theorem C1_counterexample :
    decode true (bytesOf "a b c;") =
      (.vmap [(keyOrderKey, .vstrlist [[97]]), ([97], .vstr [98, 32, 99])], none) ∧
    (decode true (bytesOf "a b c;")).1 ≠
      .vmap [(keyOrderKey, .vstrlist [[97]]),
             ([97], .vmap [(keyOrderKey, .vstrlist [[98]]), ([98], .vstr [99])])] := by
  have h : decode true (bytesOf "a b c;") =
      (.vmap [(keyOrderKey, .vstrlist [[97]]), ([97], .vstr [98, 32, 99])], none) := by
    simp only [decode, decodeWith, scanABCsemi]
    rfl
  refine ⟨h, ?_⟩
  rw [h]
  intro hc
  simp at hc

set_option maxHeartbeats 1000000 in
/-- The implicit-nesting chain of `Decoder.parseValue`: a run of word
tokens followed by a braced body resolves to one single-key map per
word, to arbitrary depth. -/
theorem nesting_chain (ko : Bool) (k v : List Nat) (ts : List Tag) (fin : Err) :
    ∀ (ws' : List (List Nat)) (w : List Nat) (fuel : Nat),
      2 * ws'.length + 12 ≤ fuel →
      parseValueTag fuel ko ⟨w, .Tag⟩ .vnull
        ⟨ws'.map (fun u => (⟨u, .Tag⟩ : Tag)) ++
          (⟨[123], .BraceOpen⟩ :: ⟨k, .Tag⟩ :: ⟨v, .Tag⟩ :: ⟨[59], .Semicol⟩ ::
           ⟨[125], .BraceClose⟩ :: ts), fin⟩ =
        (none, .rv (nestMaps (w :: ws') (.vmap (mapInsert [] ko [] k (.vstr v)))),
         ⟨ts, fin⟩) := by
  intro ws'
  induction ws' with
  | nil =>
    intro w fuel hf
    obtain ⟨g, rfl⟩ : ∃ g, fuel = g + 12 := ⟨fuel - 12, by omega⟩
    simp only [List.map_nil, List.nil_append]
    rfl
  | cons w2 ws'' ih =>
    intro w fuel hf
    simp only [List.length_cons] at hf
    obtain ⟨g, rfl⟩ : ∃ g, fuel = g + 2 := ⟨fuel - 2, by omega⟩
    simp only [List.map_cons, List.cons_append]
    have step : parseValueTag (g + 2) ko ⟨w, .Tag⟩ .vnull
        ⟨(⟨w2, .Tag⟩ : Tag) ::
          (ws''.map (fun u => (⟨u, .Tag⟩ : Tag)) ++
           (⟨[123], .BraceOpen⟩ :: ⟨k, .Tag⟩ :: ⟨v, .Tag⟩ :: ⟨[59], .Semicol⟩ ::
            ⟨[125], .BraceClose⟩ :: ts)), fin⟩ =
        (match parseValueTag g ko ⟨w2, .Tag⟩ .vnull
            ⟨ws''.map (fun u => (⟨u, .Tag⟩ : Tag)) ++
              (⟨[123], .BraceOpen⟩ :: ⟨k, .Tag⟩ :: ⟨v, .Tag⟩ :: ⟨[59], .Semicol⟩ ::
               ⟨[125], .BraceClose⟩ :: ts), fin⟩ with
         | (some e, _, d2) => (some e, RVal.rv .vnull, d2)
         | (none, res, d2) =>
           let rv : Value := match res with | .rv x => x | .rt tg => .vtag tg
           (none,
            .rv (.vmap (mapSet (mapSet [] keyOrderKey (.vstrlist [w])) w rv)),
            d2)) := rfl
    rw [step, ih w2 g (by omega)]
    simp [nestMaps]

/-- C1 amended: juxtaposed bare words separated only by spaces are
glued by the scanner into a single space-separated scalar value, so
`a b c;` decodes to `{a: "b c"}` (first conjunct).  Implicit nesting
to arbitrary depth does happen whenever the words are delivered as
separate tokens — e.g. when the run ends in `{`, which splits the
accumulated words — so `a b c { d e; }` yields four levels of
single-key maps (second conjunct), and in general a run of word
tokens before a braced body resolves to one nested single-key map
per word (third conjunct). -/
theorem C1_implicit_nesting_amended :
    decode true (bytesOf "a b c;") =
      (.vmap [(keyOrderKey, .vstrlist [[97]]), ([97], .vstr [98, 32, 99])], none) ∧
    decode true (bytesOf "a b c { d e; }") =
      (.vmap [(keyOrderKey, .vstrlist [[97]]),
        ([97], .vmap [(keyOrderKey, .vstrlist [[98]]),
          ([98], .vmap [(keyOrderKey, .vstrlist [[99]]),
            ([99], .vmap [(keyOrderKey, .vstrlist [[100]]),
              ([100], .vstr [101])])])])], none) ∧
    (∀ ko (k v : List Nat) ts fin (ws : List (List Nat)) fuel,
       ws ≠ [] → 2 * ws.length + 13 ≤ fuel →
       parseValue fuel ko none .vnull
         ⟨ws.map (fun u => (⟨u, .Tag⟩ : Tag)) ++
           (⟨[123], .BraceOpen⟩ :: ⟨k, .Tag⟩ :: ⟨v, .Tag⟩ :: ⟨[59], .Semicol⟩ ::
            ⟨[125], .BraceClose⟩ :: ts), fin⟩ =
         (none, .rv (nestMaps ws (.vmap (mapInsert [] ko [] k (.vstr v)))),
          ⟨ts, fin⟩)) := by
  refine ⟨?_, ?_, ?_⟩
  · simp only [decode, decodeWith, scanABCsemi]
    rfl
  · simp only [decode, decodeWith, scanABCbrace]
    rfl
  · intro ko k v ts fin ws fuel hws hf
    rcases ws with _ | ⟨w, ws'⟩
    · exact absurd rfl hws
    simp only [List.length_cons] at hf
    obtain ⟨g, rfl⟩ : ∃ g, fuel = g + 1 := ⟨fuel - 1, by omega⟩
    simp only [List.map_cons, List.cons_append]
    have step : parseValue (g + 1) ko none .vnull
        ⟨(⟨w, .Tag⟩ : Tag) ::
          (ws'.map (fun u => (⟨u, .Tag⟩ : Tag)) ++
           (⟨[123], .BraceOpen⟩ :: ⟨k, .Tag⟩ :: ⟨v, .Tag⟩ :: ⟨[59], .Semicol⟩ ::
            ⟨[125], .BraceClose⟩ :: ts)), fin⟩ =
        parseValueTag g ko ⟨w, .Tag⟩ .vnull
          ⟨ws'.map (fun u => (⟨u, .Tag⟩ : Tag)) ++
            (⟨[123], .BraceOpen⟩ :: ⟨k, .Tag⟩ :: ⟨v, .Tag⟩ :: ⟨[59], .Semicol⟩ ::
             ⟨[125], .BraceClose⟩ :: ts), fin⟩ := rfl
    rw [step, nesting_chain ko k v ts fin ws' w g (by omega)]

/-- C1 witness: the nesting conjunct applied at two juxtaposed word
tokens `a b` with braced body `c d;`, enough fuel supplied. -/
theorem C1_witness :
    parseValue 17 true none .vnull
      ⟨[(⟨[97], .Tag⟩ : Tag), ⟨[98], .Tag⟩, ⟨[123], .BraceOpen⟩, ⟨[99], .Tag⟩,
        ⟨[100], .Tag⟩, ⟨[59], .Semicol⟩, ⟨[125], .BraceClose⟩], .eofSig⟩ =
      (none,
       .rv (nestMaps [[97], [98]] (.vmap (mapInsert [] true [] [99] (.vstr [100])))),
       ⟨[], .eofSig⟩) :=
  C1_implicit_nesting_amended.2.2 true [99] [100] [] .eofSig [[97], [98]] 17
    (by decide) (by decide)

/-- C3 counterexample: with the key-order switch disabled, the
single-key maps created by implicit nesting still carry the reserved
key-order entry (`Decoder.parseValue` sets `mapValue[KeyOrder]`
unconditionally): decoding `a b { c d; }` with the switch off leaves
`--ucl-keyorder--` inside the map created for `b`, refuting "no map
in the returned tree contains the reserved key-order entry". -/
theorem C3_counterexample :
    decode false (bytesOf "a b { c d; }") =
      (.vmap [([97], .vmap [(keyOrderKey, .vstrlist [[98]]),
                            ([98], .vmap [([99], .vstr [100])])])], none) ∧
    (match (decode false (bytesOf "a b { c d; }")).1 with
     | .vmap es =>
       match mapGet es [97] with
       | some (.vmap es2) => mapGet es2 keyOrderKey
       | _ => none
     | _ => none) = some (.vstrlist [[98]]) := by
  have h : decode false (bytesOf "a b { c d; }") =
      (.vmap [([97], .vmap [(keyOrderKey, .vstrlist [[98]]),
                            ([98], .vmap [([99], .vstr [100])])])], none) := by
    simp only [decode, decodeWith, scanABbrace]
    rfl
  exact ⟨h, by rw [h]; rfl⟩

/-- Map lookup after a store at the same key. -/
theorem mapGet_mapSet_self (m : List (List Nat × Value)) (k : List Nat) (v : Value) :
    mapGet (mapSet m k v) k = some v := by
  induction m with
  | nil => simp [mapSet, mapGet]
  | cons p rest ih =>
    by_cases h : p.1 = k
    · simp [mapSet, mapGet, h]
    · simp [mapSet, mapGet, h, ih]

/-- Map lookup after a store at a different key. -/
theorem mapGet_mapSet_ne (m : List (List Nat × Value)) (k' k : List Nat) (v : Value)
    (h : k' ≠ k) : mapGet (mapSet m k' v) k = mapGet m k := by
  induction m with
  | nil => simp [mapSet, mapGet, h]
  | cons p rest ih =>
    by_cases hp : p.1 = k'
    · simp [mapSet, mapGet, hp, h]
    · simp only [mapSet, mapGet, hp, if_neg]
      by_cases hk : p.1 = k <;> simp [hk, ih]

/-- `mapInsert` of a fresh key stores the value directly. -/
theorem mapInsert_get_new (m : List (List Nat × Value)) (koI : Bool)
    (koL : List (List Nat)) (k : List Nat) (v : Value)
    (_hk : k ≠ keyOrderKey) (h : mapGet m k = none) :
    mapGet (mapInsert m koI koL k v) k = some v := by
  simp only [mapInsert, h]
  by_cases hko : koI <;>
    simp [hko, mapGet_mapSet_self,
      mapGet_mapSet_ne _ keyOrderKey k _ (Ne.symm _hk)]

/-- `mapInsert` on an occupied key: an existing `[]interface{}` is
appended to, anything else is promoted to a 2-element list. -/
theorem mapInsert_get_prev (m : List (List Nat × Value)) (koI : Bool)
    (koL : List (List Nat)) (k : List Nat) (v w : Value)
    (h : mapGet m k = some w) :
    mapGet (mapInsert m koI koL k v) k =
      some (match w with
            | .vlist arr => .vlist (arr ++ [v])
            | _ => .vlist [w, v]) := by
  cases w <;> simp [mapInsert, h, mapGet_mapSet_self]

/-- Once the stored value is a list, further inserts append. -/
theorem fold_insert_list (koI : Bool) (koL : List (List Nat)) (k : List Nat) :
    ∀ (vs : List (List Nat)) (m : List (List Nat × Value)) (arr : List Value),
      mapGet m k = some (.vlist arr) →
      mapGet (vs.foldl (fun es w => mapInsert es koI koL k (.vstr w)) m) k =
        some (.vlist (arr ++ vs.map .vstr)) := by
  intro vs
  induction vs with
  | nil => intro m arr h; simpa using h
  | cons w ws ih =>
    intro m arr h
    have h1 := mapInsert_get_prev m koI koL k (.vstr w) _ h
    simp only [List.foldl_cons]
    rw [ih _ _ h1]
    simp

/-- C2: inserting the same user key `n` times with scalar values
through the duplicate-key step of `Decoder.parse` stores the single
value directly when `n = 1` and the ordered list of all `n` values
when `n ≥ 2`: the first duplicate promotes the scalar to a 2-element
list, later duplicates append. -/
theorem C2_duplicate_key_promotion :
    ∀ (m : List (List Nat × Value)) (k : List Nat) (koInit : Bool)
      (koList : List (List Nat)), k ≠ keyOrderKey → mapGet m k = none →
      ∀ (v : List Nat) (vs : List (List Nat)),
        mapGet ((v :: vs).foldl
            (fun es w => mapInsert es koInit koList k (.vstr w)) m) k =
          (if vs = [] then some (.vstr v)
           else some (.vlist ((v :: vs).map .vstr))) := by
  intro m k koInit koList hk h0 v vs
  have h1 := mapInsert_get_new m koInit koList k (.vstr v) hk h0
  cases vs with
  | nil => simpa using h1
  | cons w ws =>
    have h2 := mapInsert_get_prev _ koInit koList k (.vstr w) _ h1
    simp only [List.foldl_cons]
    rw [fold_insert_list koInit koList k ws _ _ h2]
    simp

/-- C2 witness: key `a` inserted three times with values `1`, `2`,
`3` into an empty map yields the ordered 3-element list; the
hypotheses are discharged at the concrete input. -/
theorem C2_witness :
    ([97] : List Nat) ≠ keyOrderKey ∧
    mapGet ([] : List (List Nat × Value)) [97] = none ∧
    mapGet ((([49] : List Nat) :: [[50], [51]]).foldl
        (fun es w => mapInsert es true [] [97] (.vstr w)) []) [97] =
      (if ([[50], [51]] : List (List Nat)) = [] then some (Value.vstr [49])
       else some (.vlist ((([49] : List Nat) :: [[50], [51]]).map .vstr))) :=
  ⟨by decide, rfl,
   C2_duplicate_key_promotion [] [97] true [] (by decide) rfl [49] [[50], [51]]⟩

/-! ## The key-order invariant (C3): preservation through the parse family -/

theorem parentOk_vnull (ko : Bool) : ParentOk ko .vnull :=
  ⟨.vnull, fun _ h => Value.noConfusion h⟩

theorem bodyOk_of_parentOk (ko : Bool) (es : List (List Nat × Value))
    (h : ParentOk ko (.vmap es)) : BodyOk ko es := by
  obtain ⟨hv, habs⟩ := h
  cases hv with
  | vmap es hko hvals => exact ⟨hko, habs es rfl, hvals⟩

theorem parentOk_of_bodyOk (ko : Bool) (es : List (List Nat × Value))
    (h : BodyOk ko es) : ParentOk ko (.vmap es) := by
  obtain ⟨hko, habs, hvals⟩ := h
  refine ⟨.vmap es hko hvals, ?_⟩
  intro es' he
  injection he with he'
  subst he'
  exact habs

theorem bodyOk_nil (ko : Bool) : BodyOk ko [] :=
  ⟨Or.inr rfl, fun _ => rfl, by simp⟩

/-- `Decoder.nextTag` preserves cleanliness and yields clean tokens. -/
theorem nextTagL_clean : ∀ (ts : List Tag) (fin : Err) (t : Tag) (d1 : Dec),
    (∀ u ∈ ts, u.val ≠ keyOrderKey) → nextTagL ts fin = .ok (t, d1) →
    t.val ≠ keyOrderKey ∧ Clean d1
  | [], fin, t, d1 => by
    intro _ h
    simp [nextTagL] at h
  | u :: ts, fin, t, d1 => by
    intro hc h
    simp only [nextTagL] at h
    by_cases hf : isFilteredTag u
    · rw [if_pos hf] at h
      exact nextTagL_clean ts fin t d1
        (fun v hv => hc v (List.mem_cons_of_mem _ hv)) h
    · rw [if_neg hf] at h
      simp only [Except.ok.injEq, Prod.mk.injEq] at h
      obtain ⟨rfl, rfl⟩ := h
      exact ⟨hc u (by simp),
        fun v hv => hc v (List.mem_cons_of_mem _ hv)⟩

theorem nextTag_clean (d : Dec) (t : Tag) (d1 : Dec) (hc : Clean d)
    (h : nextTag d = .ok (t, d1)) : t.val ≠ keyOrderKey ∧ Clean d1 :=
  nextTagL_clean d.tags d.fin t d1 hc h

/-- A successful lookup points at a pair of the list. -/
theorem mapGet_some_mem : ∀ (es : List (List Nat × Value)) (k : List Nat) (v : Value),
    mapGet es k = some v → (k, v) ∈ es
  | [], k, v => by simp [mapGet]
  | (k', v') :: es, k, v => by
    simp only [mapGet]
    by_cases h : k' = k
    · subst h
      rw [if_pos rfl]
      intro hv
      simp only [Option.some.injEq] at hv
      subst hv
      simp
    · rw [if_neg h]
      intro hv
      exact List.mem_cons_of_mem _ (mapGet_some_mem es k v hv)

/-- Every pair of a `mapSet` result is the stored pair or an original
one. -/
theorem mem_mapSet : ∀ (es : List (List Nat × Value)) (k : List Nat) (v : Value)
    (p : List Nat × Value), p ∈ mapSet es k v → p = (k, v) ∨ p ∈ es
  | [], k, v, p => by simp [mapSet]
  | (k', v') :: es, k, v, p => by
    simp only [mapSet]
    by_cases h : k' = k
    · rw [if_pos h]
      intro hp
      rcases List.mem_cons.1 hp with h1 | h1
      · exact Or.inl h1
      · exact Or.inr (List.mem_cons_of_mem _ h1)
    · rw [if_neg h]
      intro hp
      rcases List.mem_cons.1 hp with h1 | h1
      · exact Or.inr (h1 ▸ List.mem_cons_self _ _)
      · rcases mem_mapSet es k v p h1 with h2 | h2
        · exact Or.inl h2
        · exact Or.inr (List.mem_cons_of_mem _ h2)

/-- Unfolding `userKeys` over a cons. -/
theorem userKeys_cons (k' : List Nat) (v' : Value) (es : List (List Nat × Value)) :
    userKeys ((k', v') :: es) =
      if k' = keyOrderKey then userKeys es else k' :: userKeys es := by
  by_cases h : k' = keyOrderKey <;> simp [userKeys, List.filter_cons, h]

/-- Storing under the reserved key leaves the user keys unchanged. -/
theorem userKeys_mapSet_ko : ∀ (es : List (List Nat × Value)) (v : Value),
    userKeys (mapSet es keyOrderKey v) = userKeys es
  | [], v => by simp [mapSet, userKeys]
  | (k', v') :: es, v => by
    by_cases h : k' = keyOrderKey
    · subst h
      simp [mapSet, userKeys_cons]
    · simp only [mapSet, if_neg h]
      rw [userKeys_cons, userKeys_cons, if_neg h, if_neg h, userKeys_mapSet_ko es v]

/-- Storing a fresh user key appends it to the user keys. -/
theorem userKeys_mapSet_new : ∀ (es : List (List Nat × Value)) (k : List Nat)
    (v : Value), k ≠ keyOrderKey → mapGet es k = none →
    userKeys (mapSet es k v) = userKeys es ++ [k]
  | [], k, v => by
    intro hk _
    simp [mapSet, userKeys, hk]
  | (k', v') :: es, k, v => by
    intro hk hg
    simp only [mapGet] at hg
    by_cases h : k' = k
    · rw [if_pos h] at hg
      exact absurd hg (by simp)
    · rw [if_neg h] at hg
      simp only [mapSet, if_neg h]
      rw [userKeys_cons, userKeys_cons]
      by_cases hd : k' = keyOrderKey
      · rw [if_pos hd, if_pos hd, userKeys_mapSet_new es k v hk hg]
      · rw [if_neg hd, if_neg hd, userKeys_mapSet_new es k v hk hg]
        rfl

/-- Storing over an existing key leaves the user keys unchanged. -/
theorem userKeys_mapSet_dup : ∀ (es : List (List Nat × Value)) (k : List Nat)
    (v w : Value), mapGet es k = some w →
    userKeys (mapSet es k v) = userKeys es
  | [], k, v, w => by simp [mapGet]
  | (k', v') :: es, k, v, w => by
    intro hg
    simp only [mapGet] at hg
    by_cases h : k' = k
    · subst h
      simp only [mapSet, if_true, eq_self_iff_true]
      rw [userKeys_cons, userKeys_cons]
    · rw [if_neg h] at hg
      simp only [mapSet, if_neg h]
      rw [userKeys_cons, userKeys_cons, userKeys_mapSet_dup es k v w hg]

/-- A map with no reserved entry and no user keys is empty. -/
theorem mapGet_none_userKeys_nil : ∀ (es : List (List Nat × Value)),
    mapGet es keyOrderKey = none → userKeys es = [] → es = []
  | [] => by intro _ _; rfl
  | (k', v') :: es => by
    intro hg hu
    simp only [mapGet] at hg
    by_cases h : k' = keyOrderKey
    · rw [if_pos h] at hg
      exact absurd hg (by simp)
    · simp [userKeys, List.filter_cons, h] at hu

/-- The insertion step of `Decoder.parse` preserves the key-order
invariant of the map body being filled. -/
theorem insert_bodyOk (ko : Bool) (entries : List (List Nat × Value))
    (koInit : Bool) (koList : List (List Nat)) (k : List Nat) (res : Value)
    (hb : BodyOk ko entries) (hr : readKeyOrder entries ko = .ok (koInit, koList))
    (hk : k ≠ keyOrderKey) (hres : ValueOk ko res) :
    BodyOk ko (mapInsert entries koInit koList k res) := by
  obtain ⟨hko, habs, hvals⟩ := hb
  simp only [mapInsert]
  cases hgk : mapGet entries k with
  | some w =>
    have hmem : (k, w) ∈ entries := mapGet_some_mem entries k w hgk
    have hwok : ValueOk ko w := hvals (k, w) hmem
    have hgko : ∀ x : Value, mapGet (mapSet entries k x) keyOrderKey =
        mapGet entries keyOrderKey :=
      fun x => mapGet_mapSet_ne entries k keyOrderKey x hk
    have huk : ∀ x : Value, userKeys (mapSet entries k x) = userKeys entries :=
      fun x => userKeys_mapSet_dup entries k x w hgk
    have hvnew : ∀ x : Value, ValueOk ko x →
        ∀ p ∈ mapSet entries k x, ValueOk ko p.2 := by
      intro x hx p hp
      rcases mem_mapSet entries k x p hp with rfl | hp'
      · exact hx
      · exact hvals p hp'
    have hkonew : ∀ x : Value, KoEntryOk ko (mapSet entries k x) := by
      intro x
      simp only [KoEntryOk, hgko, huk]
      simp only [KoEntryOk] at hko
      exact hko
    have habsnew : ∀ x : Value, ko = false →
        mapGet (mapSet entries k x) keyOrderKey = none := by
      intro x hf
      rw [hgko]
      exact habs hf
    cases w with
    | vlist arr =>
      refine ⟨hkonew _, habsnew _, hvnew _ ?_⟩
      refine .vlist _ ?_
      intro v hv
      rcases List.mem_append.1 hv with h1 | h1
      · cases hwok with
        | vlist _ hall => exact hall v h1
      · simp only [List.mem_singleton] at h1
        subst h1
        exact hres
    | vnull => exact ⟨hkonew _, habsnew _, hvnew _ (.vlist _ (by
        intro v hv
        rcases List.mem_cons.1 hv with rfl | hv'
        · exact hwok
        · simp only [List.mem_singleton] at hv'
          subst hv'
          exact hres))⟩
    | vstr s => exact ⟨hkonew _, habsnew _, hvnew _ (.vlist _ (by
        intro v hv
        rcases List.mem_cons.1 hv with rfl | hv'
        · exact hwok
        · simp only [List.mem_singleton] at hv'
          subst hv'
          exact hres))⟩
    | vmap es2 => exact ⟨hkonew _, habsnew _, hvnew _ (.vlist _ (by
        intro v hv
        rcases List.mem_cons.1 hv with rfl | hv'
        · exact hwok
        · simp only [List.mem_singleton] at hv'
          subst hv'
          exact hres))⟩
    | vstrlist ss => exact ⟨hkonew _, habsnew _, hvnew _ (.vlist _ (by
        intro v hv
        rcases List.mem_cons.1 hv with rfl | hv'
        · exact hwok
        · simp only [List.mem_singleton] at hv'
          subst hv'
          exact hres))⟩
    | vtag tg => exact ⟨hkonew _, habsnew _, hvnew _ (.vlist _ (by
        intro v hv
        rcases List.mem_cons.1 hv with rfl | hv'
        · exact hwok
        · simp only [List.mem_singleton] at hv'
          subst hv'
          exact hres))⟩
  | none =>
    simp only [readKeyOrder] at hr
    cases hg : mapGet entries keyOrderKey with
    | none =>
      rw [hg] at hr
      simp only [Except.ok.injEq, Prod.mk.injEq] at hr
      obtain ⟨rfl, rfl⟩ := hr
      cases ko with
      | false =>
        simp only [Bool.false_eq_true, if_false]
        refine ⟨?_, ?_, ?_⟩
        · simp only [KoEntryOk, mapGet_mapSet_ne entries k keyOrderKey res hk, hg]
          exact Or.inl (by simp)
        · intro _
          rw [mapGet_mapSet_ne entries k keyOrderKey res hk]
          exact hg
        · intro p hp
          rcases mem_mapSet entries k res p hp with rfl | hp'
          · exact hres
          · exact hvals p hp'
      | true =>
        simp only [if_true]
        simp only [KoEntryOk, hg] at hko
        have hempty : entries = [] := by
          rcases hko with h1 | h1
          · exact absurd h1 (by simp)
          · exact mapGet_none_userKeys_nil entries hg h1
        subst hempty
        refine ⟨?_, ?_, ?_⟩
        · simp only [KoEntryOk, mapSet]
          rw [if_neg (fun h => hk h.symm)]
          simp only [mapGet, if_pos rfl]
          rw [userKeys_cons, userKeys_cons, if_pos rfl, if_neg hk]
          simp [userKeys, hk]
        · intro hff
          exact absurd hff (by simp)
        · intro p hp
          simp only [mapSet] at hp
          rw [if_neg (fun h => hk h.symm)] at hp
          rcases List.mem_cons.1 hp with rfl | hp'
          · exact .vstrlist _
          · simp only [List.mem_singleton] at hp'
            subst hp'
            exact hres
    | some w =>
      cases w with
      | vstrlist ss =>
        rw [hg] at hr
        simp only [Except.ok.injEq, Prod.mk.injEq] at hr
        obtain ⟨rfl, rfl⟩ := hr
        have hkotrue : ko = true := by
          cases ko with
          | true => rfl
          | false => exact absurd (habs rfl) (by simp [hg])
        subst hkotrue
        simp only [if_true]
        simp only [KoEntryOk, hg] at hko
        obtain ⟨hss, hne, -⟩ := hko
        have hg1 : mapGet (mapSet entries keyOrderKey
            (.vstrlist (ss ++ [k]))) k = none := by
          rw [mapGet_mapSet_ne entries keyOrderKey k _ (fun h => hk h.symm)]
          exact hgk
        refine ⟨?_, ?_, ?_⟩
        · simp only [KoEntryOk]
          rw [mapGet_mapSet_ne _ k keyOrderKey res hk, mapGet_mapSet_self]
          rw [userKeys_mapSet_new _ k res hk hg1, userKeys_mapSet_ko]
          refine ⟨by rw [hss], by simp, Or.inl trivial⟩
        · intro hff
          exact absurd hff (by simp)
        · intro p hp
          rcases mem_mapSet _ k res p hp with rfl | hp'
          · exact hres
          · rcases mem_mapSet entries keyOrderKey _ p hp' with rfl | hp''
            · exact .vstrlist _
            · exact hvals p hp''
      | vnull => rw [hg] at hr; exact absurd hr (by simp)
      | vstr s => rw [hg] at hr; exact absurd hr (by simp)
      | vlist vs => rw [hg] at hr; exact absurd hr (by simp)
      | vmap es2 => rw [hg] at hr; exact absurd hr (by simp)
      | vtag tg => rw [hg] at hr; exact absurd hr (by simp)

theorem pv_zero (ko : Bool) : PVGood ko 0 := by
  intro tOpt parent d _ hd _
  exact ⟨.vnull, hd⟩

theorem pvt_zero (ko : Bool) : PVTGood ko 0 := by
  intro t parent d _ hd _
  exact ⟨.vnull, hd⟩

theorem pl_zero (ko : Bool) : PLGood ko 0 := by
  intro tOpt parent d _ hd _
  exact ⟨.vnull, hd⟩

theorem plt_zero (ko : Bool) : PLTGood ko 0 := by
  intro t parent d _ hd _
  exact ⟨.vnull, hd⟩

theorem p_zero (ko : Bool) : PGood ko 0 := by
  intro tOpt parent d hp hd _
  exact ⟨.vnull, hp, hd⟩

theorem pt_zero (ko : Bool) : PTGood ko 0 := by
  intro t parent d hp hd _
  exact ⟨.vnull, hp, hd⟩

theorem pv_step (ko : Bool) (fuel : Nat) (ihpvt : PVTGood ko fuel) :
    PVGood ko (fuel + 1) := by
  intro tOpt parent d hp hd ht
  cases tOpt with
  | some t =>
    simp only [parseValue]
    exact ihpvt t parent d hp hd ht
  | none =>
    simp only [parseValue]
    cases hnt : nextTag d with
    | error e => exact ⟨.vnull, hd⟩
    | ok td =>
      obtain ⟨t, d1⟩ := td
      obtain ⟨ht1, hd1⟩ := nextTag_clean d t d1 hd hnt
      exact ihpvt t parent d1 hp hd1 ht1

theorem pl_step (ko : Bool) (fuel : Nat) (ihplt : PLTGood ko fuel) :
    PLGood ko (fuel + 1) := by
  intro tOpt parent d hv hd ht
  cases tOpt with
  | some t =>
    simp only [parseList]
    exact ihplt t parent d hv hd ht
  | none =>
    simp only [parseList]
    cases hnt : nextTag d with
    | error e => exact ⟨.vnull, hd⟩
    | ok td =>
      obtain ⟨t, d1⟩ := td
      obtain ⟨ht1, hd1⟩ := nextTag_clean d t d1 hd hnt
      exact ihplt t parent d1 hv hd1 ht1

theorem p_step (ko : Bool) (fuel : Nat) (ihpt : PTGood ko fuel) :
    PGood ko (fuel + 1) := by
  intro tOpt parent d hp hd ht
  cases tOpt with
  | some t =>
    simp only [parse]
    exact ihpt t parent d hp hd ht
  | none =>
    simp only [parse]
    cases hnt : nextTag d with
    | error e => exact ⟨.vnull, hp, hd⟩
    | ok td =>
      obtain ⟨t, d1⟩ := td
      obtain ⟨ht1, hd1⟩ := nextTag_clean d t d1 hd hnt
      exact ihpt t parent d1 hp hd1 ht1

/-- The single-key map of implicit nesting satisfies the invariant:
it carries the reserved entry with exactly its one user key,
regardless of the switch. -/
theorem implicitMap_ok (ko : Bool) (w : List Nat) (rv : Value)
    (hw : w ≠ keyOrderKey) (hrv : ValueOk ko rv) :
    ValueOk ko (.vmap (mapSet (mapSet [] keyOrderKey (.vstrlist [w])) w rv)) := by
  have hes : mapSet (mapSet [] keyOrderKey (.vstrlist [w])) w rv =
      [(keyOrderKey, .vstrlist [w]), (w, rv)] := by
    simp only [mapSet]
    rw [if_neg (fun h => hw h.symm)]
  rw [hes]
  refine .vmap _ ?_ ?_
  · simp only [KoEntryOk, mapGet, if_pos rfl]
    refine ⟨?_, by simp, Or.inr rfl⟩
    rw [userKeys_cons, if_pos rfl, userKeys_cons, if_neg hw]
    rfl
  · intro p hp
    rcases List.mem_cons.1 hp with rfl | hp'
    · exact .vstrlist _
    · simp only [List.mem_singleton] at hp'
      subst hp'
      exact hrv

theorem pvt_step (ko : Bool) (fuel : Nat) (ihpv : PVGood ko fuel)
    (ihpl : PLGood ko fuel) (ihp : PGood ko fuel) : PVTGood ko (fuel + 1) := by
  intro t parent d hp hd ht
  obtain ⟨tv, tst⟩ := t
  simp only [Tag.val] at ht
  cases tst with
  | Tag | Quote | VQuote | Slash =>
    all_goals
    simp only [parseValueTag]
    cases hnt : nextTag d with
    | error e => exact ⟨.vnull, hd⟩
    | ok td =>
      obtain ⟨nt, d1⟩ := td
      obtain ⟨hnt1, hd1⟩ := nextTag_clean d nt d1 hd hnt
      dsimp only
      by_cases h1 : nt.state = .Semicol ∨ nt.state = .Comma
      · rw [if_pos h1]
        exact ⟨.vstr _, hd1⟩
      · rw [if_neg h1]
        by_cases h2 : nt.state = .BraceClose ∨ nt.state = .BracketClose
        · rw [if_pos h2]
          exact ⟨ht, hd1⟩
        · rw [if_neg h2]
          have hrec := ihpv (some nt) parent d1 hp hd1 hnt1
          rcases hpv : parseValue fuel ko (some nt) parent d1 with ⟨e1, res1, d2⟩
          rw [hpv] at hrec
          obtain ⟨hr1, hc2⟩ := hrec
          cases e1 with
          | some e => exact ⟨.vnull, hc2⟩
          | none =>
            dsimp only at hr1
            cases res1 with
            | rv x => exact ⟨implicitMap_ok ko tv x ht hr1, hc2⟩
            | rt tg => exact ⟨implicitMap_ok ko tv (.vtag tg) ht (.vtag _), hc2⟩
  | Semicol =>
    simp only [parseValueTag]
    by_cases hn : parent.isNull
    · rw [if_pos hn]
      exact ⟨ht, hd⟩
    · rw [if_neg hn]
      exact ⟨hp.1, hd⟩
  | Comma =>
    simp only [parseValueTag]
    by_cases hn : parent.isNull
    · rw [if_pos hn]
      exact ⟨ht, hd⟩
    · rw [if_neg hn]
      exact ⟨hp.1, hd⟩
  | MlString =>
    simp only [parseValueTag]
    exact ⟨.vstr _, hd⟩
  | BraceOpen =>
    simp only [parseValueTag]
    have hrec := ihp (some ⟨tv, .BraceOpen⟩) parent d hp hd ht
    rcases hpp : parse fuel ko (some ⟨tv, .BraceOpen⟩) parent d with ⟨e1, r1, po1, d2⟩
    rw [hpp] at hrec
    exact ⟨hrec.1, hrec.2.2⟩
  | BraceClose =>
    simp only [parseValueTag]
    exact ⟨hp.1, hd⟩
  | BracketOpen =>
    simp only [parseValueTag]
    have hrec := ihpl none [] d (by simp) hd trivial
    rcases hpl : parseList fuel ko none [] d with ⟨e1, r1, d2⟩
    rw [hpl] at hrec
    exact ⟨hrec.1, hrec.2⟩
  | BracketClose =>
    simp only [parseValueTag]
    exact ⟨hp.1, hd⟩
  | Equal =>
    simp only [parseValueTag]
    exact ihpv none parent d hp hd trivial
  | Colon =>
    simp only [parseValueTag]
    exact ihpv none parent d hp hd trivial
  | Whitespace =>
    simp only [parseValueTag]
    exact ⟨.vnull, hd⟩
  | HComment =>
    simp only [parseValueTag]
    exact ⟨.vnull, hd⟩
  | LComment =>
    simp only [parseValueTag]
    exact ⟨.vnull, hd⟩
  | LCommentClosing =>
    simp only [parseValueTag]
    exact ⟨.vnull, hd⟩
  | MaybeMlString =>
    simp only [parseValueTag]
    exact ⟨.vnull, hd⟩
  | MaybeMlString2 =>
    simp only [parseValueTag]
    exact ⟨.vnull, hd⟩
  | MlStringPrep =>
    simp only [parseValueTag]
    exact ⟨.vnull, hd⟩
  | MlStringHeaderOk =>
    simp only [parseValueTag]
    exact ⟨.vnull, hd⟩

theorem plt_step (ko : Bool) (fuel : Nat) (ihpv : PVGood ko fuel)
    (ihpl : PLGood ko fuel) : PLTGood ko (fuel + 1) := by
  intro t parent d hv hd ht
  simp only [parseListTag]
  cases hts : t.state
  case BracketClose =>
    exact ⟨.vlist _ hv, hd⟩
  case Semicol => exact ⟨.vnull, hd⟩
  case Colon => exact ⟨.vnull, hd⟩
  case Equal => exact ⟨.vnull, hd⟩
  case Comma => exact ihpl none parent d hv hd trivial
  all_goals {
    dsimp only
    have hrec := ihpv (some t) .vnull d (parentOk_vnull ko) hd ht
    rcases hpv : parseValue fuel ko (some t) .vnull d with ⟨e1, res1, d1⟩
    rw [hpv] at hrec
    obtain ⟨hr1, hc1⟩ := hrec
    dsimp only at hr1 hc1
    cases e1 with
    | some e => exact ⟨.vnull, hc1⟩
    | none =>
      cases res1 with
      | rt rt =>
        dsimp only
        by_cases h2 : rt.state = .BracketClose
        · rw [if_pos h2]
          refine ⟨.vlist _ ?_, hc1⟩
          intro v hvm
          rcases List.mem_append.1 hvm with h3 | h3
          · exact hv v h3
          · simp only [List.mem_singleton] at h3
            subst h3
            exact .vstr _
        · rw [if_neg h2]
          exact ⟨.vnull, hc1⟩
      | rv v =>
        refine ihpl none (parent ++ [v]) d1 ?_ hc1 trivial
        intro u hu
        rcases List.mem_append.1 hu with h3 | h3
        · exact hv u h3
        · simp only [List.mem_singleton] at h3
          subst h3
          exact hr1 }

theorem pt_step (ko : Bool) (fuel : Nat) (ihpv : PVGood ko fuel)
    (ihpl : PLGood ko fuel) (ihp : PGood ko fuel) (ihpt : PTGood ko fuel) :
    PTGood ko (fuel + 1) := by
  intro t parent d hp hd ht
  simp only [parseTag]
  cases hts : t.state
  case Semicol => exact ihp none parent d hp hd trivial
  case MlString => exact ⟨.vnull, hp, hd⟩
  case BraceClose => exact ⟨hp.1, hp, hd⟩
  case BracketClose => exact ⟨hp.1, hp, hd⟩
  case BracketOpen =>
    dsimp only
    have hrec := ihpl none [] d (by simp) hd trivial
    rcases hpl : parseList fuel ko none [] d with ⟨e1, r1, d2⟩
    rw [hpl] at hrec
    exact ⟨hrec.1, hp, hrec.2⟩
  case BraceOpen =>
    cases parent with
    | vnull =>
      dsimp only
      have hrec := ihp none (.vmap []) d
        (parentOk_of_bodyOk ko [] (bodyOk_nil ko)) hd trivial
      rcases hpp : parse fuel ko none (.vmap []) d with ⟨e1, r1, po1, d2⟩
      rw [hpp] at hrec
      exact ⟨hrec.1, parentOk_vnull ko, hrec.2.2⟩
    | vmap entries =>
      dsimp only
      have hrec := ihp none (.vmap entries) d hp hd trivial
      rcases hpp : parse fuel ko none (.vmap entries) d with ⟨e1, r1, po1, d2⟩
      rw [hpp] at hrec
      exact hrec
    | vlist xs =>
      dsimp only
      have hrec := ihp none (.vlist xs) d hp hd trivial
      rcases hpp : parse fuel ko none (.vlist xs) d with ⟨e1, r1, po1, d2⟩
      rw [hpp] at hrec
      exact hrec
    | vstr s => exact ⟨.vnull, hp, hd⟩
    | vstrlist ss => exact ⟨.vnull, hp, hd⟩
    | vtag tg => exact ⟨.vnull, hp, hd⟩
  case Whitespace => exact ⟨.vnull, hp, hd⟩
  case Comma => exact ⟨.vnull, hp, hd⟩
  case HComment => exact ⟨.vnull, hp, hd⟩
  case LComment => exact ⟨.vnull, hp, hd⟩
  case LCommentClosing => exact ⟨.vnull, hp, hd⟩
  case MaybeMlString => exact ⟨.vnull, hp, hd⟩
  case MaybeMlString2 => exact ⟨.vnull, hp, hd⟩
  case MlStringPrep => exact ⟨.vnull, hp, hd⟩
  case MlStringHeaderOk => exact ⟨.vnull, hp, hd⟩
  case Equal => exact ⟨.vnull, hp, hd⟩
  case Colon => exact ⟨.vnull, hp, hd⟩
  all_goals {
    cases parent with
    | vnull => exact ⟨.vnull, hp, hd⟩
    | vstr s => exact ⟨.vnull, hp, hd⟩
    | vstrlist ss => exact ⟨.vnull, hp, hd⟩
    | vtag tg => exact ⟨.vnull, hp, hd⟩
    | vlist xs => exact ⟨.vnull, hp, hd⟩
    | vmap entries =>
      dsimp only
      have hb := bodyOk_of_parentOk ko entries hp
      cases hrk : readKeyOrder entries ko with
      | error e => exact ⟨.vnull, hp, hd⟩
      | ok pr =>
        obtain ⟨koInit, koList⟩ := pr
        dsimp only
        have hrec := ihpv none .vnull d (parentOk_vnull ko) hd trivial
        rcases hpv : parseValue fuel ko none .vnull d with ⟨e1, res1, d1⟩
        rw [hpv] at hrec
        obtain ⟨hr1, hc1⟩ := hrec
        dsimp only at hr1 hc1
        cases e1 with
        | some e =>
          cases res1 with
          | rt rt =>
            dsimp only
            by_cases h2 : rt.state = .Semicol
            · rw [if_pos h2]
              exact ihp none _ d1
                (parentOk_of_bodyOk _ _
                  (insert_bodyOk ko entries koInit koList t.val .vnull
                    hb hrk ht .vnull)) hc1 trivial
            · rw [if_neg h2]
              exact ihp none _ d1
                (parentOk_of_bodyOk _ _
                  (insert_bodyOk ko entries koInit koList t.val (.vtag rt)
                    hb hrk ht (.vtag _))) hc1 trivial
          | rv v => exact ⟨.vnull, hp, hc1⟩
        | none =>
          cases res1 with
          | rt rt =>
            dsimp only
            by_cases h2 : rt.state = .BraceClose
            · rw [if_pos h2]
              have hb1 := insert_bodyOk ko entries koInit koList rt.val
                (.vstr rt.val) hb hrk hr1 (.vstr _)
              have hp1 := parentOk_of_bodyOk _ _ hb1
              exact ⟨hp1.1, hp1, hc1⟩
            · rw [if_neg h2]
              exact ihpt rt (.vmap entries) d1 hp hc1 hr1
          | rv v =>
            dsimp only
            exact ihp none _ d1
              (parentOk_of_bodyOk _ _
                (insert_bodyOk ko entries koInit koList t.val v
                  hb hrk ht hr1)) hc1 trivial }

/-- The key-order invariant holds of every value the parse family
produces, threads, and of the parent map it fills, at every fuel. -/
theorem parseFamilyOk (ko : Bool) : ∀ fuel : Nat,
    PVGood ko fuel ∧ PVTGood ko fuel ∧ PLGood ko fuel ∧ PLTGood ko fuel ∧
    PGood ko fuel ∧ PTGood ko fuel := by
  intro fuel
  induction fuel with
  | zero =>
    exact ⟨pv_zero ko, pvt_zero ko, pl_zero ko, plt_zero ko, p_zero ko, pt_zero ko⟩
  | succ n ih =>
    obtain ⟨ihpv, ihpvt, ihpl, ihplt, ihp, ihpt⟩ := ih
    exact ⟨pv_step ko n ihpvt, pvt_step ko n ihpv ihpl ihp,
      pl_step ko n ihplt, plt_step ko n ihpv ihpl,
      p_step ko n ihpt, pt_step ko n ihpv ihpl ihp ihpt⟩

/-- The tree returned by `decode` satisfies the key-order invariant,
whatever the switch, provided no input token spells the reserved
key. -/
theorem decode_valueOk (ko : Bool) (inp : List Nat)
    (hc : Clean (Dec.init inp)) : ValueOk ko (decode ko inp).1 := by
  have h := ((((parseFamilyOk ko (16 * inp.length + 64)).2.2).2.2).1) none
    (.vmap []) (Dec.init inp) (parentOk_of_bodyOk ko [] (bodyOk_nil ko)) hc trivial
  obtain ⟨-, hpo, -⟩ := h
  simp only [decode, decodeWith]
  rcases hp : parse (16 * inp.length + 64) ko none (.vmap []) (Dec.init inp)
    with ⟨e, r, po, d⟩
  rw [hp] at hpo
  exact hpo.1

set_option maxHeartbeats 1000000 in
/-- C3: key-order recording is controlled by the `ExportKeyOrder`
switch, on by default (first conjunct).  The corrected invariant
(second conjunct): in any decoded tree (reserved key not used by the
input itself), every map either carries no reserved entry — possible
only when the switch is off or the map has no user keys — or carries
under the reserved key exactly its distinct user keys in
first-insertion order, nonempty; with the switch off this still
happens for the single-key maps of implicit nesting (always a
one-element list), refuting "no map contains the reserved entry when
disabled".  Third conjunct: the brace-close bubble path of
`Decoder.parse` (`res, t = string(resTag.val), resTag` before
`k := string(t.val)`) inserts key and value both equal to the carried
scalar: `m { b c }` decodes to a tree whose inner map has the single
user key `c` (the key token `b` is dropped) and key-order list
`[c]`. -/
theorem C3_keyorder_recording :
    ExportKeyOrderDefault = true ∧
    (∀ (ko : Bool) (inp : List Nat), Clean (Dec.init inp) →
      ValueOk ko (decode ko inp).1) ∧
    decode true (bytesOf "m { b c }") =
      (.vmap [(keyOrderKey, .vstrlist [[109]]),
              ([109], .vmap [(keyOrderKey, .vstrlist [[99]]),
                             ([99], .vstr [99])])], none) := by
  refine ⟨rfl, decode_valueOk, ?_⟩
  simp only [decode, decodeWith, scanBubble]
  rfl

/-- C3 witness: the invariant theorem applied with the switch off to
`a b { c d; }`, whose token stream is concrete and clean. -/
theorem C3_witness :
    Clean (Dec.init (bytesOf "a b { c d; }")) ∧
    ValueOk false (decode false (bytesOf "a b { c d; }")).1 := by
  have hc : Clean (Dec.init (bytesOf "a b { c d; }")) := by
    rw [scanABbrace]
    intro t htm
    fin_cases htm <;> decide
  exact ⟨hc, C3_keyorder_recording.2.1 false (bytesOf "a b { c d; }") hc⟩

/-- C8: a heredoc token where a key is expected is a grammar error
(`Decoder.parse` case `MlString`, `errUnexpectedMultiline`), and a
heredoc token in value position is always a terminal scalar — its
body text — never a key (`Decoder.parseValue` case `MlString` returns
the string without any lookahead).  The closed conjuncts run the full
pipeline on a heredoc in key position and in value position. -/
theorem C8_heredoc_positions :
    (∀ fuel ko v parent d,
       parseTag (fuel + 1) ko ⟨v, .MlString⟩ parent d =
         (some .unexpectedMultiline, .vnull, parent, d)) ∧
    (∀ fuel ko v parent d,
       parseValueTag (fuel + 1) ko ⟨v, .MlString⟩ parent d = (none, .rv (.vstr v), d)) ∧
    decode true (bytesOf "<<EOD\nx\nEOD\nb;") = (.vmap [], some .unexpectedMultiline) ∧
    decode true (bytesOf "a <<EOD\nhello\nEOD\n") =
      (.vmap [(keyOrderKey, .vstrlist [[97]]), ([97], .vstr [104, 101, 108, 108, 111])],
       none) := by
  refine ⟨fun _ _ _ _ _ => rfl, fun _ _ _ _ _ => rfl, ?_, ?_⟩
  · simp only [decode, decodeWith, scanHeredocKey]
    rfl
  · simp only [decode, decodeWith, scanHeredocVal]
    rfl

set_option maxHeartbeats 1000000 in
/-- C9: a key token immediately followed by `;` makes `Decoder.parse`
insert the key with a null value and continue with the remaining
tokens (the `resTag.state == Semicolon` error-swallow branch sets
`res = nil`); first conjunct is the general step equation, second
conjunct runs the full pipeline on `a; b 1;`, where `a` becomes null
and parsing continues normally with `b`. -/
theorem C9_key_semicolon_null (fuel : Nat) (ko koInit : Bool) (k sv : List Nat)
    (entries : List (List Nat × Value)) (koList : List (List Nat))
    (ts : List Tag) (fin : Err)
    (hko : readKeyOrder entries ko = .ok (koInit, koList)) :
    parse (fuel + 4) ko none (.vmap entries)
        ⟨(⟨k, .Tag⟩ : Tag) :: ⟨sv, .Semicol⟩ :: ts, fin⟩ =
      parse (fuel + 2) ko none (.vmap (mapInsert entries koInit koList k .vnull))
        ⟨ts, fin⟩ ∧
    decode true (bytesOf "a; b 1;") =
      (.vmap [(keyOrderKey, .vstrlist [[97], [98]]), ([97], .vnull),
              ([98], .vstr [49])], none) := by
  constructor
  · have step1 : parse (fuel + 4) ko none (.vmap entries)
        ⟨(⟨k, .Tag⟩ : Tag) :: ⟨sv, .Semicol⟩ :: ts, fin⟩ =
        parseTag (fuel + 3) ko ⟨k, .Tag⟩ (.vmap entries) ⟨⟨sv, .Semicol⟩ :: ts, fin⟩ := rfl
    have stepv : parseValue (fuel + 2) ko none .vnull ⟨(⟨sv, .Semicol⟩ : Tag) :: ts, fin⟩ =
        (some .unexpectedSemi, .rt ⟨sv, .Semicol⟩, ⟨ts, fin⟩) := rfl
    rw [step1]
    simp only [parseTag]
    rw [hko, stepv]
    simp
  · simp only [decode, decodeWith, scanSemiNull]
    rfl

/-- C9 witness: the step equation applied to key `a` and `;` on an
empty top-level map, the key-order hypothesis discharged by
computation. -/
theorem C9_witness :
    readKeyOrder ([] : List (List Nat × Value)) true = .ok (true, []) ∧
    (parse 4 true none (.vmap [])
        ⟨[(⟨[97], .Tag⟩ : Tag), ⟨[59], .Semicol⟩], .eofSig⟩ =
      parse 2 true none (.vmap (mapInsert [] true [] [97] .vnull)) ⟨[], .eofSig⟩ ∧
     decode true (bytesOf "a; b 1;") =
      (.vmap [(keyOrderKey, .vstrlist [[97], [98]]), ([97], .vnull),
              ([98], .vstr [49])], none)) :=
  ⟨rfl, C9_key_semicolon_null 0 true true [97] [59] [] [] [] .eofSig rfl⟩

end UCL
